import Mathlib

/-!
Verification development for the `auto_attribute_tree` repository.

The development shallowly embeds the two source files:

* `src/model/auto_attribute_tree.py` — the divisive tree builder
  (`level_pamk`, class `Node`, class `AutoAttributeTree` with `fit`,
  `get_clusters`, `num_levels`).  Row identity is what matters for the
  tree bookkeeping, so a data table is embedded as its list of row ids
  (the first column); the feature columns are consumed only by the
  external model-selection oracle `pamk`, which is embedded as an
  opaque function from the node's rows to a chosen cluster count `k`,
  per-row labels and medoid row indices, exactly the fields of
  `pam_res` that `level_pamk` reads.  The z-score normalization is an
  external feature transform that leaves the id column untouched, so
  it is the identity on the embedded view.  The Python `while` loop of
  `fit` is embedded with explicit fuel; a completed call is one that
  returns `some` final state.

* `src/model/spectral.py` — `discretize` and
  `spectral_clustering_mod`.  The numerical linear algebra (numpy SVD,
  spectral embedding) is embedded as oracles with the library's
  documented interface, and the float arithmetic of the normalization
  step is embedded over `ℝ`; the control flow of the restart/retry
  loops is embedded exactly.
-/

namespace AAT

/-- Embedding of class `Node` of `auto_attribute_tree.py`: `name`,
`parent_node`, ordered `children_nodes`, and `data` (the node's row-id
list; `None` after `del_data`). -/
structure Node where
  name : Nat
  parent_node : Option Nat
  children_nodes : List Nat
  data : Option (List Nat)
deriving DecidableEq, Repr

instance : Inhabited Node := ⟨⟨0, none, [], none⟩⟩

/-- `Node.add_child`. -/
def Node.add_child (nd : Node) (n : Nat) : Node :=
  ⟨nd.name, nd.parent_node, nd.children_nodes ++ [n], nd.data⟩

/-- `Node.del_data`. -/
def Node.del_data (nd : Node) : Node :=
  ⟨nd.name, nd.parent_node, nd.children_nodes, none⟩

/-- The fields of the `pamk` result that `level_pamk` reads: the chosen
cluster count `pam_res[1]`, the per-row labels `pam_res[0].labels_`, and
`pam_res[0].medoid_indices_`. -/
structure PamRes where
  k : Nat
  labels : List Nat
  medoid_indices : List Nat
deriving DecidableEq, Repr

/-- The external model-selection oracle (`pamk`), specified only through
its interface: from the rows of a node it produces a `PamRes`. -/
abbrev Oracle := List Nat → PamRes

/-- The documented contract of the oracle: one label per row, labels in
`0..k-1`, and one medoid index per chosen cluster. -/
def OracleWF (oracle : Oracle) : Prop :=
  ∀ ids : List Nat,
    (oracle ids).labels.length = ids.length ∧
    (∀ l ∈ (oracle ids).labels, l < (oracle ids).k) ∧
    (oracle ids).medoid_indices.length = (oracle ids).k

/-- Embedding of `level_pamk` (given the oracle's answer `res` for
`ids`): when `pam_res[1] != 1`, `clusters` pairs each row id with
`label + offset + 1` and `medoids` pairs each cluster id
`offset+1 .. offset+k` with its representative row id
(`id_col.iloc[medoid_indices_]`); otherwise both frames are empty. -/
def level_pamk (ids : List Nat) (offset : Nat) (res : PamRes) :
    List (Nat × Nat) × List (Nat × Nat) :=
  if res.k ≠ 1 then
    (ids.zip (res.labels.map (fun l => l + offset + 1)),
     ((List.range res.k).map (fun j => offset + 1 + j)).zip
        (res.medoid_indices.map (fun t => ids.getD t 0)))
  else ([], [])

/-- The mutable state of an `AutoAttributeTree` instance: the node
arena, the FIFO work queue `incomplete_nodes`, the accumulated medoid
table, the level index `levels2nodes` (with its set of touched keys,
since Python's `defaultdict` creates a key on first access), its inverse
`nodes2levels`, and the final `leaf_nodes_idx`. -/
structure TreeState where
  nodes : List Node
  incomplete_nodes : List Nat
  medoids : List (Nat × Nat)
  levels2nodes : Nat → List Nat
  levelKeys : List Nat
  nodes2levels : Nat → Nat
  leaf_nodes_idx : List Nat

/-- The state right after `fit` creates the root: a single node `0`
holding the whole (normalized) table, queue `[0]`, level maps seeded
with `{0 : 0}`. -/
def initState (ids : List Nat) : TreeState :=
  { nodes := [⟨0, none, [], some ids⟩]
    incomplete_nodes := [0]
    medoids := []
    levels2nodes := fun l => if l = 0 then [0] else []
    levelKeys := [0]
    nodes2levels := fun _ => 0
    leaf_nodes_idx := [] }

/-- The rows of the parent that belong to child cluster `n`: the Python
boolean mask `[i in list(clustered_data.id[clustered_data.cluster == n])
for i in data_node.iloc[:, 0]]`. -/
def childDataOf (cl : List (Nat × Nat)) (dn : List Nat) (n : Nat) : List Nat :=
  dn.filter (fun i => decide (i ∈ (cl.filter (fun p => p.2 = n)).map Prod.fst))

/-- The freshly created child node `Node(n, current_node_idx, data_node[mask])`. -/
def mkChild (idx : Nat) (cl : List (Nat × Nat)) (dn : List Nat) (n : Nat) : Node :=
  ⟨n, some idx, [], some (childDataOf cl dn n)⟩

/-- One turn of the `for n in list(medoids.cluster)` loop of `fit`:
attach `n` to the parent's children, append the new child node to the
arena, and record its level in both level maps. -/
def addChild (idx lvl : Nat) (cl : List (Nat × Nat)) (dn : List Nat)
    (s : TreeState) (n : Nat) : TreeState :=
  let cur := s.nodes.getD idx default
  { s with
    nodes := s.nodes.set idx (cur.add_child n) ++ [mkChild idx cl dn n]
    levels2nodes := fun l => if l = lvl + 1 then s.levels2nodes (lvl + 1) ++ [n]
                             else s.levels2nodes l
    levelKeys := if lvl + 1 ∈ s.levelKeys then s.levelKeys else s.levelKeys ++ [lvl + 1]
    nodes2levels := fun m => if m = n then lvl + 1 else s.nodes2levels m }

/-- The accepted-split branch of `fit` (`len(medoids) > 1`): merge the
medoid frame into the accumulator, push the new cluster ids onto the
back of the work queue, create every child, then release the parent's
data (`current_node.del_data()`). -/
def applySplit (idx lvl : Nat) (cl md : List (Nat × Nat)) (dn : List Nat)
    (s : TreeState) : TreeState :=
  let s1 := { s with
    medoids := s.medoids ++ md
    incomplete_nodes := s.incomplete_nodes ++ md.map Prod.fst }
  let s2 := (md.map Prod.fst).foldl (addChild idx lvl cl dn) s1
  { s2 with nodes := s2.nodes.set idx (s2.nodes.getD idx default).del_data }

/-- The epilogue of `fit`: `leaf_nodes_idx = [n.name for n in self.nodes
if n.data is not None]`. -/
def finalize (s : TreeState) : TreeState :=
  { s with leaf_nodes_idx := (s.nodes.filter (fun nd => nd.data.isSome)).map Node.name }

/-- The `while len(self.incomplete_nodes) > 0` loop of `fit`, with
explicit fuel.  `dn`/`lvl` are the Python locals `data_node`/`level`,
which are reassigned from the dequeued node only when
`current_node_idx > 0` and otherwise keep their previous value.  A node
with at most 2 rows is skipped (`continue`); otherwise the oracle is
consulted and a split is applied only when `len(medoids) > 1`. -/
def fitLoop (oracle : Oracle) : Nat → TreeState → List Nat → Nat → Option TreeState
  | 0, s, _, _ => if s.incomplete_nodes = [] then some (finalize s) else none
  | fuel+1, s, dn, lvl =>
    match s.incomplete_nodes with
    | [] => some (finalize s)
    | idx :: rest =>
      let s1 : TreeState := { s with incomplete_nodes := rest }
      let dn' := if 0 < idx then ((s1.nodes.getD idx default).data).getD [] else dn
      let lvl' := if 0 < idx then s1.nodes2levels idx else lvl
      if 2 < dn'.length then
        let pr := level_pamk dn' (s1.nodes.length - 1) (oracle dn')
        if 1 < pr.2.length then
          fitLoop oracle fuel (applySplit idx lvl' pr.1 pr.2 dn' s1) dn' lvl'
        else
          fitLoop oracle fuel s1 dn' lvl'
      else
        fitLoop oracle fuel s1 dn' lvl'

/-- Embedding of `AutoAttributeTree.fit`.  The z-score step transforms
only the feature columns, so the embedded table (its id column) enters
the root unchanged.  A call that drains the queue within `fuel`
iterations returns `some` final state. -/
def fit (oracle : Oracle) (fuel : Nat) (ids : List Nat) : Option TreeState :=
  fitLoop oracle fuel (initState ids) ids 0

/-- The ids dequeued by `fit`, in dequeue order (same control flow as
`fitLoop`). -/
def fitTrace (oracle : Oracle) : Nat → TreeState → List Nat → Nat → List Nat
  | 0, _, _, _ => []
  | fuel+1, s, dn, lvl =>
    match s.incomplete_nodes with
    | [] => []
    | idx :: rest =>
      let s1 : TreeState := { s with incomplete_nodes := rest }
      let dn' := if 0 < idx then ((s1.nodes.getD idx default).data).getD [] else dn
      let lvl' := if 0 < idx then s1.nodes2levels idx else lvl
      if 2 < dn'.length then
        let pr := level_pamk dn' (s1.nodes.length - 1) (oracle dn')
        if 1 < pr.2.length then
          idx :: fitTrace oracle fuel (applySplit idx lvl' pr.1 pr.2 dn' s1) dn' lvl'
        else
          idx :: fitTrace oracle fuel s1 dn' lvl'
      else
        idx :: fitTrace oracle fuel s1 dn' lvl'

/-- `node.parent_node` read as an index (only ever evaluated on
non-root nodes in the source). -/
def parentOf (s : TreeState) (n : Nat) : Nat :=
  ((s.nodes.getD n default).parent_node).getD 0

/-- The `while self.nodes2levels[n_idx] > level` walk of `get_clusters`,
with fuel (the walk strictly descends one level per step, so a fuel of
the starting depth is enough). -/
def climb (s : TreeState) (level : Nat) : Nat → Nat → Nat
  | 0, idx => idx
  | fuel+1, idx =>
    if level < s.nodes2levels idx then climb s level fuel (parentOf s idx) else idx

/-- `max(self.levels2nodes.keys())`. -/
def maxKey (l : List Nat) : Nat := l.foldr max 0

/-- Embedding of `AutoAttributeTree.get_clusters`: rows of
`(id, cluster)`, one per row of each leaf, where the cluster is found by
walking parent pointers from the leaf up to the first node of depth at
most `level` (`None` means the deepest touched level). -/
def get_clusters (s : TreeState) (level : Option Nat) : List (Nat × Nat) :=
  let lvl := level.getD (maxKey s.levelKeys)
  s.leaf_nodes_idx.flatMap (fun n =>
    let c := climb s lvl (s.nodes2levels n) n
    (((s.nodes.getD n default).data).getD []).map (fun i => (i, c)))

/-- Embedding of `AutoAttributeTree.num_levels`. -/
def num_levels (s : TreeState) : Nat := maxKey s.levelKeys + 1

/-- `a` is an ancestor of `b` in the tree of `s`, or `a = b`. -/
inductive AncSelf (s : TreeState) : Nat → Nat → Prop where
  | refl (n : Nat) : AncSelf s n n
  | step (a b : Nat) : AncSelf s a (parentOf s b) → AncSelf s a b

end AAT

namespace Spectral

/-! ### Embedding of `discretize` from `src/model/spectral.py`

The normalization prologue (lines 79-89) is plain float arithmetic on
the embedding matrix and is embedded over `ℝ`.  The search loops
(lines 91-146) depend on the numerics only through the result of each
`np.linalg.svd` call — either a `LinAlgError` or the singular values
`S` (the factors `U`, `Vh` only feed the next rotation, which in turn
only influences later SVD inputs) — so the loop control flow is
embedded against an oracle `svd : Nat → SvdOutcome` giving the outcome
of the `t`-th SVD call of the run; the hard partition `labels`
computed in an iteration is identified by that iteration's call
index. -/

noncomputable section

open Real

/-- Euclidean norm of a (column or row) vector, `np.linalg.norm` /
`np.sqrt((v ** 2).sum())`. -/
def vecNorm {m : Nat} (v : Fin m → ℝ) : ℝ := Real.sqrt (∑ j, v j ^ 2)

/-- Line 81-82: `vectors[:, i] = vectors[:, i] / norm(vectors[:, i]) *
sqrt(n_samples)`. -/
def scaleColumn {m : Nat} (v : Fin m → ℝ) : Fin m → ℝ :=
  fun j => v j / vecNorm v * Real.sqrt m

/-- Lines 83-84: `if vectors[0, i] != 0: vectors[:, i] = -1 *
vectors[:, i] * np.sign(vectors[0, i])` (applied to the already scaled
column). -/
def flipColumn {n : Nat} (v : Fin (n + 1) → ℝ) : Fin (n + 1) → ℝ :=
  if v 0 ≠ 0 then fun j => -1 * v j * Real.sign (v 0) else v

/-- The per-column loop of lines 80-84. -/
def normalizeColumns {n d : Nat} (V : Fin (n + 1) → Fin d → ℝ) :
    Fin (n + 1) → Fin d → ℝ :=
  fun i j => flipColumn (scaleColumn (fun r => V r j)) i

/-- Line 89: `vectors = vectors / np.sqrt((vectors ** 2).sum(axis=1))[:,
np.newaxis]`. -/
def normalizeRows {n d : Nat} (V : Fin n → Fin d → ℝ) : Fin n → Fin d → ℝ :=
  fun i j => V i j / vecNorm (V i)

/-- The whole normalization prologue of `discretize` (lines 79-89). -/
def discretizeNormalize {n d : Nat} (V : Fin (n + 1) → Fin d → ℝ) :
    Fin (n + 1) → Fin d → ℝ :=
  normalizeRows (normalizeColumns V)

end

/-- Outcome of one `np.linalg.svd` call inside `discretize`: a
`LinAlgError`, or success with singular values `svals`. -/
inductive SvdOutcome where
  | fail
  | succ (svals : List ℚ)
deriving DecidableEq

/-- Result of the inner rotation/partition loop (lines 116-142): either
convergence with the labels of the final iteration (identified by that
iteration's SVD call index), or a `LinAlgError` break.  The last two
fields are the updated SVD call counter and the updated `svd_restarts`
counter. -/
inductive InnerResult where
  | converged (labels : Nat) (t : Nat) (restarts : Nat)
  | svdFail (t : Nat) (restarts : Nat)
deriving DecidableEq

/-- Structural engine for the inner loop: `fuel` is kept equal to
`cap + 1 - n_iter`, which strictly decreases on the non-converged
branch.  When `fuel = 0` the cap disjunct `cap < n_iter + 1` of the
convergence test already holds, so the zero arm returns exactly what
the loop body would; the faithful one-step unfolding of the source
loop is the lemma `innerLoop_eq` below. -/
def innerLoopGo (svd : Nat → SvdOutcome) (n eps : ℚ) (cap : Nat) :
    Nat → Nat → Nat → Nat → ℚ → InnerResult
  | 0, t, restarts, _, _ =>
    match svd t with
    | .fail => .svdFail (t + 1) restarts
    | .succ _ => .converged t (t + 1) (restarts + 1)
  | fuel + 1, t, restarts, n_iter, last =>
    match svd t with
    | .fail => .svdFail (t + 1) restarts
    | .succ svals =>
      let ncut := 2 * (n - svals.sum)
      if |ncut - last| < eps ∨ cap < n_iter + 1 then
        .converged t (t + 1) (restarts + 1)
      else
        innerLoopGo svd n eps cap fuel (t + 1) (restarts + 1) (n_iter + 1) ncut

/-- The inner `while not has_converged` loop of `discretize`.  Each
iteration increments `n_iter`, computes the hard partition (labels) from
the current rotation, and calls SVD (call number `t`).  On
`LinAlgError` the loop breaks WITHOUT touching `svd_restarts`; on
success `svd_restarts += 1` (line 130 of the source places the
increment inside the `try` block, after the successful call), the
objective is `ncut = 2 * (n_samples - S.sum())`, and the loop declares
convergence when `|ncut - last_objective_value| < eps` or
`n_iter > n_iter_max`, otherwise it updates the rotation and repeats
(`innerLoop_eq` states exactly this unfolding). -/
def innerLoop (svd : Nat → SvdOutcome) (n eps : ℚ) (cap : Nat)
    (t restarts n_iter : Nat) (last : ℚ) : InnerResult :=
  innerLoopGo svd n eps cap (cap + 1 - n_iter) t restarts n_iter last

/-- Raised/returned result of `discretize`: the final labels, or the
`LinAlgError('SVD did not converge')` raised after the outer loop. -/
inductive DiscResult where
  | error
  | labels (t : Nat)
deriving DecidableEq

/-- The outer `while (svd_restarts < max_svd_restarts) and not
has_converged` loop (lines 96-145), with fuel: each pass re-seeds a
random rotation (which costs no SVD call) and runs the inner loop;
`none` means the loop had not terminated after `fuel` passes. -/
def outerLoop (svd : Nat → SvdOutcome) (n eps : ℚ) (cap max_svd_restarts : Nat) :
    Nat → Nat → Nat → Option DiscResult
  | 0, _, _ => none
  | fuel+1, t, restarts =>
    if restarts < max_svd_restarts then
      match innerLoop svd n eps cap t restarts 0 0 with
      | .converged lab _ _ => some (.labels lab)
      | .svdFail t' r' => outerLoop svd n eps cap max_svd_restarts fuel t' r'
    else some .error

/-- `discretize`'s restart/convergence machinery with the source's
default bounds (`max_svd_restarts=30`, `n_iter_max=20`). -/
def discretizeSkel (svd : Nat → SvdOutcome) (n eps : ℚ)
    (max_svd_restarts n_iter_max fuel : Nat) : Option DiscResult :=
  outerLoop svd n eps n_iter_max max_svd_restarts fuel 0 0

/-! ### Embedding of `spectral_clustering_mod` (lines 229-257)

The heavy numeric steps are oracles: `embed` is the
`spectral_embedding` call (keyed by the `n_components` actually
passed), and the three label-assignment back ends are functions of the
embedding.  `discretize` may raise `LinAlgError`, embedded as
`Except String`. -/

/-- Errors `spectral_clustering_mod` can raise: the `ValueError` of the
`assign_labels` validation, or a numerical `LinAlgError` propagated from
`discretize`. -/
inductive SCError where
  | valueError (msg : String)
  | linAlgError (msg : String)
deriving DecidableEq

/-- The numeric collaborators of `spectral_clustering_mod` over an
opaque embedding type `E`, centers type `C`, labels type `L`. -/
structure SCOracles (E C L : Type) where
  embed : Nat → E
  kmedoids : E → C × L
  kmeans : E → C × L
  discretize : E → Except String L

/-- Embedding of `spectral_clustering_mod`: validate `assign_labels`
first (raising `ValueError` before anything else runs), default
`n_components` to `n_clusters`, compute the spectral embedding, then
dispatch on `assign_labels`; `discretize` yields no cluster centers. -/
def spectral_clustering_mod {E C L : Type} (assign_labels : String)
    (n_clusters : Nat) (n_components : Option Nat) (oracles : SCOracles E C L) :
    Except SCError (L × E × Option C) :=
  if assign_labels ∉ (["kmedoids", "kmeans", "discretize"] : List String) then
    .error (.valueError ("The assign_labels parameter should be kmedoids, kmeans or discretize, but "
      ++ assign_labels ++ " was given"))
  else
    let ncomp := n_components.getD n_clusters
    let maps := oracles.embed ncomp
    if assign_labels = "kmedoids" then
      let r := oracles.kmedoids maps
      .ok (r.2, maps, some r.1)
    else if assign_labels = "kmeans" then
      let r := oracles.kmeans maps
      .ok (r.2, maps, some r.1)
    else
      match oracles.discretize maps with
      | .ok l => .ok (l, maps, none)
      | .error m => .error (.linAlgError m)

end Spectral

/-! ## List helper lemmas -/

namespace AAT

lemma list_set_getD_self {α : Type} (L : List α) (i : Nat) (d : α)
    (h : i < L.length) : L.set i (L.getD i d) = L := by
  induction L generalizing i with
  | nil => simp at h
  | cons a t ih =>
    cases i with
    | zero => simp
    | succ j =>
      simp only [List.length_cons, Nat.succ_lt_succ_iff] at h
      simp only [List.getD_cons_succ, List.set_cons_succ, ih j h]

lemma list_getD_append_left {α : Type} (L M : List α) (i : Nat) (d : α)
    (h : i < L.length) : (L ++ M).getD i d = L.getD i d := by
  simp [List.getD, List.getElem?_append_left h]

lemma list_getD_set_self {α : Type} (L : List α) (i : Nat) (x d : α)
    (h : i < L.length) : (L.set i x).getD i d = x := by
  simp [List.getD, List.getElem?_set_self, h]

lemma list_getD_set_ne {α : Type} (L : List α) (i j : Nat) (x d : α)
    (h : i ≠ j) : (L.set i x).getD j d = L.getD j d := by
  simp [List.getD, List.getElem?_set_ne h]

lemma tree_state_ext (s₁ s₂ : TreeState) (h1 : s₁.nodes = s₂.nodes)
    (h2 : s₁.incomplete_nodes = s₂.incomplete_nodes) (h3 : s₁.medoids = s₂.medoids)
    (h4 : s₁.levels2nodes = s₂.levels2nodes) (h5 : s₁.levelKeys = s₂.levelKeys)
    (h6 : s₁.nodes2levels = s₂.nodes2levels)
    (h7 : s₁.leaf_nodes_idx = s₂.leaf_nodes_idx) : s₁ = s₂ := by
  cases s₁; cases s₂; simp_all

/-! ## Closed form of a split step -/

lemma foldl_add_child_spec (ms : List Nat) : ∀ nd : Node,
    ms.foldl Node.add_child nd =
      ⟨nd.name, nd.parent_node, nd.children_nodes ++ ms, nd.data⟩ := by
  induction ms with
  | nil => intro nd; simp
  | cons n ms ih =>
    intro nd
    rw [List.foldl_cons, ih]
    simp [Node.add_child]

lemma foldl_addChild_closed (idx lvl : Nat) (cl : List (Nat × Nat)) (dn : List Nat)
    (ms : List Nat) : ∀ (s : TreeState), idx < s.nodes.length →
    ms.foldl (addChild idx lvl cl dn) s =
      { nodes := s.nodes.set idx (ms.foldl Node.add_child (s.nodes.getD idx default))
                 ++ ms.map (mkChild idx cl dn)
        incomplete_nodes := s.incomplete_nodes
        medoids := s.medoids
        levels2nodes := fun l => if l = lvl + 1 then s.levels2nodes (lvl + 1) ++ ms
                                 else s.levels2nodes l
        levelKeys := if ms.isEmpty then s.levelKeys
                     else if lvl + 1 ∈ s.levelKeys then s.levelKeys
                          else s.levelKeys ++ [lvl + 1]
        nodes2levels := fun m => if m ∈ ms then lvl + 1 else s.nodes2levels m
        leaf_nodes_idx := s.leaf_nodes_idx } := by
  induction ms with
  | nil =>
    intro s h
    apply tree_state_ext
    · simp only [List.foldl_nil, List.map_nil, List.append_nil]
      exact (list_set_getD_self _ _ _ h).symm
    · rfl
    · rfl
    · funext l
      by_cases hl : l = lvl + 1 <;> simp [hl]
    · simp
    · funext m
      simp
    · rfl
  | cons n ms ih =>
    intro s h
    have hset : idx < (s.nodes.set idx ((s.nodes.getD idx default).add_child n)).length := by
      simpa using h
    have hlen : idx < (addChild idx lvl cl dn s n).nodes.length := by
      show idx < (s.nodes.set idx ((s.nodes.getD idx default).add_child n)
        ++ [mkChild idx cl dn n]).length
      simp only [List.length_append, List.length_set]
      omega
    have hget : (addChild idx lvl cl dn s n).nodes.getD idx default =
        (s.nodes.getD idx default).add_child n := by
      show (s.nodes.set idx ((s.nodes.getD idx default).add_child n)
        ++ [mkChild idx cl dn n]).getD idx default = _
      rw [list_getD_append_left _ _ _ _ hset, list_getD_set_self _ _ _ _ h]
    rw [List.foldl_cons, ih _ hlen]
    clear ih
    apply tree_state_ext
    · dsimp only
      rw [hget]
      show (s.nodes.set idx ((s.nodes.getD idx default).add_child n)
          ++ [mkChild idx cl dn n]).set idx
          (ms.foldl Node.add_child ((s.nodes.getD idx default).add_child n))
          ++ ms.map (mkChild idx cl dn) = _
      rw [List.set_append_left _ _ hset, List.set_set]
      simp [List.append_assoc, List.foldl_cons]
    · rfl
    · rfl
    · dsimp only
      funext l
      by_cases hl : l = lvl + 1 <;> simp [addChild, hl]
    · dsimp only
      by_cases hk : lvl + 1 ∈ s.levelKeys <;> cases ms <;> simp [addChild, hk]
    · dsimp only
      funext m
      by_cases hm : m ∈ ms
      · simp [hm]
      · by_cases hn : m = n <;> simp [addChild, hm, hn]
    · rfl

lemma applySplit_closed (idx lvl : Nat) (cl md : List (Nat × Nat)) (dn : List Nat)
    (s : TreeState) (h : idx < s.nodes.length) :
    applySplit idx lvl cl md dn s =
      { nodes := s.nodes.set idx
                   ⟨(s.nodes.getD idx default).name,
                    (s.nodes.getD idx default).parent_node,
                    (s.nodes.getD idx default).children_nodes ++ md.map Prod.fst,
                    none⟩
                 ++ (md.map Prod.fst).map (mkChild idx cl dn)
        incomplete_nodes := s.incomplete_nodes ++ md.map Prod.fst
        medoids := s.medoids ++ md
        levels2nodes := fun l => if l = lvl + 1 then
              s.levels2nodes (lvl + 1) ++ md.map Prod.fst
            else s.levels2nodes l
        levelKeys := if (md.map Prod.fst).isEmpty then s.levelKeys
                     else if lvl + 1 ∈ s.levelKeys then s.levelKeys
                          else s.levelKeys ++ [lvl + 1]
        nodes2levels := fun m => if m ∈ md.map Prod.fst then lvl + 1
                                 else s.nodes2levels m
        leaf_nodes_idx := s.leaf_nodes_idx } := by
  unfold applySplit
  dsimp only
  rw [foldl_addChild_closed _ _ _ _ _ _ (by simpa using h)]
  have hset : idx < (s.nodes.set idx
      ((md.map Prod.fst).foldl Node.add_child (s.nodes.getD idx default))).length := by
    simpa using h
  apply tree_state_ext
  · dsimp only
    rw [list_getD_append_left _ _ _ _ hset, list_getD_set_self _ _ _ _ h,
        List.set_append_left _ _ hset, List.set_set, foldl_add_child_spec]
    rfl
  all_goals rfl

/-! ## Facts about `level_pamk` -/

lemma level_pamk_clusters (ids : List Nat) (offset : Nat) (res : PamRes)
    (hk : res.k ≠ 1) :
    (level_pamk ids offset res).1 = ids.zip (res.labels.map (fun l => l + offset + 1)) := by
  simp [level_pamk, hk]

lemma level_pamk_medoid_ids (ids : List Nat) (offset : Nat) (res : PamRes)
    (hmi : res.medoid_indices.length = res.k) (hk : res.k ≠ 1) :
    (level_pamk ids offset res).2.map Prod.fst = List.range' (offset + 1) res.k := by
  simp only [level_pamk, if_pos hk]
  rw [List.map_fst_zip _ _ (by simp [hmi])]
  rw [List.range'_eq_map_range]

lemma level_pamk_medoids_length (ids : List Nat) (offset : Nat) (res : PamRes)
    (hmi : res.medoid_indices.length = res.k) (hk : res.k ≠ 1) :
    (level_pamk ids offset res).2.length = res.k := by
  simp [level_pamk, hk, hmi]

/-! ## The fit loop invariants -/

/-- Structural invariant of the builder state: names index the arena,
queued ids are allocated, the root can only sit alone at the head of the
initial queue (with `dn`/`lvl` caching its data and level), every
non-root node has a smaller parent one level up, and the medoid table
lists exactly the non-root cluster ids in allocation order. -/
structure BaseInv (s : TreeState) (dn : List Nat) (lvl : Nat) : Prop where
  nonempty : 0 < s.nodes.length
  names : ∀ i, i < s.nodes.length → (s.nodes.getD i default).name = i
  queueBound : ∀ x ∈ s.incomplete_nodes, x < s.nodes.length
  carry : 0 ∈ s.incomplete_nodes →
    s.incomplete_nodes = [0] ∧ (s.nodes.getD 0 default).data = some dn ∧
      s.nodes2levels 0 = lvl
  rootLevel : s.nodes2levels 0 = 0
  parent : ∀ i, 0 < i → i < s.nodes.length →
    ∃ p, (s.nodes.getD i default).parent_node = some p ∧ p < i ∧
      s.nodes2levels i = s.nodes2levels p + 1
  medTable : s.medoids.map Prod.fst = List.range' 1 (s.nodes.length - 1)

/-- Partition invariant: the populated `data` fields, taken together,
are a permutation of the input rows, each with no duplicates. -/
structure PartInv (s : TreeState) (ids0 : List Nat) : Prop where
  part : ((s.nodes.filterMap Node.data).flatten).Perm ids0
  nod : ∀ l ∈ s.nodes.filterMap Node.data, l.Nodup

lemma baseInv_init (ids : List Nat) : BaseInv (initState ids) ids 0 := by
  constructor
  · simp [initState]
  · intro i hi
    simp [initState] at hi
    simp [initState, hi, List.getD]
  · intro x hx
    simp [initState] at hx
    simp [initState, hx]
  · intro _
    simp [initState, List.getD]
  · simp [initState]
  · intro i hi hi'
    simp [initState] at hi'
    omega
  · simp [initState]

lemma partInv_init (ids : List Nat) (h : ids.Nodup) : PartInv (initState ids) ids := by
  constructor
  · simp [initState]
  · intro l hl
    simp [initState] at hl
    simpa [hl] using h

/-- Popping the head of the queue preserves `BaseInv` for any new
cached `data_node`/`level` pair, because after the first pop the root
can never appear in the queue again. -/
lemma baseInv_pop (s : TreeState) (dn : List Nat) (lvl : Nat) (idx : Nat)
    (rest : List Nat) (hb : BaseInv s dn lvl) (hq : s.incomplete_nodes = idx :: rest)
    (dn' : List Nat) (lvl' : Nat) :
    BaseInv { s with incomplete_nodes := rest } dn' lvl' := by
  have hzero : 0 ∉ rest := by
    intro h0
    have := hb.carry (by rw [hq]; exact List.mem_cons_of_mem _ h0)
    rw [hq] at this
    have : rest = [] := by
      have h1 := this.1
      cases h1
      rfl
    simp [this] at h0
  constructor
  · exact hb.nonempty
  · exact hb.names
  · intro x hx
    exact hb.queueBound x (by rw [hq]; exact List.mem_cons_of_mem _ hx)
  · intro h0
    exact absurd h0 hzero
  · exact hb.rootLevel
  · exact hb.parent
  · exact hb.medTable

lemma partInv_pop (s : TreeState) (ids0 : List Nat) (rest : List Nat)
    (hp : PartInv s ids0) :
    PartInv { s with incomplete_nodes := rest } ids0 :=
  ⟨hp.part, hp.nod⟩

lemma list_getD_append_right {α : Type} (L M : List α) (i : Nat) (d : α)
    (h : L.length ≤ i) : (L ++ M).getD i d = M.getD (i - L.length) d := by
  simp [List.getD, List.getElem?_append_right h]

lemma list_getD_range' (a k j d : Nat) (h : j < k) :
    (List.range' a k).getD j d = a + j := by
  rw [List.getD_eq_getElem _ _ (by simpa using h)]
  exact List.getElem_range'_1 j (by simpa using h)

/-- When the effective data (`data_node` after the `current_node_idx >
0` reassignment) of the dequeued node has rows, the dequeued id is a
valid arena slot, its stored data is exactly the effective data, and
the effective level is its stored level. -/
lemma eff_facts (s : TreeState) (dn : List Nat) (lvl : Nat) (idx : Nat)
    (rest : List Nat) (hb : BaseInv s dn lvl) (hq : s.incomplete_nodes = idx :: rest)
    (hlen : 0 < (if 0 < idx then ((s.nodes.getD idx default).data).getD [] else dn).length) :
    idx < s.nodes.length ∧
    (s.nodes.getD idx default).data =
      some (if 0 < idx then ((s.nodes.getD idx default).data).getD [] else dn) ∧
    (if 0 < idx then s.nodes2levels idx else lvl) = s.nodes2levels idx := by
  by_cases h0 : 0 < idx
  · simp only [if_pos h0] at hlen ⊢
    have hidx : idx < s.nodes.length := by
      by_contra hge
      rw [List.getD_eq_default _ _ (by omega)] at hlen
      simp [default] at hlen
    cases hdata : (s.nodes.getD idx default).data with
    | none => rw [hdata] at hlen; simp at hlen
    | some d => exact ⟨hidx, rfl, by trivial⟩
  · have hidx0 : idx = 0 := by omega
    subst hidx0
    have hc := hb.carry (by rw [hq]; exact List.mem_cons_self _ _)
    simp only [if_neg h0]
    exact ⟨hb.nonempty, hc.2.1, hc.2.2.symm⟩

/-- A split step preserves the structural invariant (for any new cached
`data_node`/`level` pair), provided the root is no longer queued. -/
lemma baseInv_applySplit (oracle : Oracle) (hwf : OracleWF oracle)
    (t : TreeState) (dn2 : List Nat) (lvl2 : Nat)
    (hb : BaseInv t dn2 lvl2) (hzero : 0 ∉ t.incomplete_nodes)
    (idx : Nat) (dn' : List Nat) (lvl' : Nat)
    (hidx : idx < t.nodes.length)
    (hlvl : lvl' = t.nodes2levels idx)
    (hpr : 1 < (level_pamk dn' (t.nodes.length - 1) (oracle dn')).2.length)
    (dn'' : List Nat) (lvl'' : Nat) :
    BaseInv (applySplit idx lvl' (level_pamk dn' (t.nodes.length - 1) (oracle dn')).1
      (level_pamk dn' (t.nodes.length - 1) (oracle dn')).2 dn' t) dn'' lvl'' := by
  have hk : (oracle dn').k ≠ 1 := by
    intro h1
    rw [show (level_pamk dn' (t.nodes.length - 1) (oracle dn')).2 = [] by
      simp [level_pamk, h1]] at hpr
    simp at hpr
  have hmi : (oracle dn').medoid_indices.length = (oracle dn').k := (hwf dn').2.2
  have hL1 : t.nodes.length - 1 + 1 = t.nodes.length := by
    have := hb.nonempty; omega
  have hmds : (level_pamk dn' (t.nodes.length - 1) (oracle dn')).2.map Prod.fst
      = List.range' t.nodes.length (oracle dn').k := by
    rw [level_pamk_medoid_ids _ _ _ hmi hk, hL1]
  have hk2 : 2 ≤ (oracle dn').k := by
    rw [level_pamk_medoids_length _ _ _ hmi hk] at hpr
    omega
  rw [applySplit_closed _ _ _ _ _ _ hidx]
  set k := (oracle dn').k with hkdef
  set L := t.nodes.length with hLdef
  have hlenNodes : ((t.nodes.set idx
      ⟨(t.nodes.getD idx default).name, (t.nodes.getD idx default).parent_node,
       (t.nodes.getD idx default).children_nodes
         ++ (level_pamk dn' (L - 1) (oracle dn')).2.map Prod.fst, none⟩)
      ++ ((level_pamk dn' (L - 1) (oracle dn')).2.map Prod.fst).map
          (mkChild idx (level_pamk dn' (L - 1) (oracle dn')).1 dn')).length
      = L + k := by
    simp [hmds]
  constructor
  · show 0 < _
    rw [hlenNodes]; omega
  · intro i hi
    rw [hlenNodes] at hi
    show ((t.nodes.set idx _ ++ _).getD i default).name = i
    by_cases hiL : i < L
    · rw [list_getD_append_left _ _ _ _ (by simpa using hiL)]
      by_cases hie : i = idx
      · subst hie
        rw [list_getD_set_self _ _ _ _ hiL]
        exact hb.names i hiL
      · rw [list_getD_set_ne _ _ _ _ _ (fun h => hie h.symm)]
        exact hb.names i hiL
    · rw [list_getD_append_right _ _ _ _ (by simpa using hiL)]
      rw [show (t.nodes.set idx _).length = L by simp]
      rw [hmds]
      have hjk : i - L < k := by omega
      rw [List.getD_eq_getElem _ _ (by simpa using hjk)]
      simp only [List.getElem_map]
      rw [List.getElem_range'_1 _ (by simpa using hjk)]
      show (mkChild _ _ _ (L + (i - L))).name = i
      simp only [mkChild]
      omega
  · intro x hx
    show x < _
    rw [hlenNodes]
    simp only [List.mem_append] at hx
    rcases hx with hx | hx
    · have := hb.queueBound x hx
      omega
    · rw [hmds, List.mem_range'_1] at hx
      omega
  · intro h0
    exfalso
    simp only [List.mem_append] at h0
    rcases h0 with h0 | h0
    · exact hzero h0
    · rw [hmds, List.mem_range'_1] at h0
      have := hb.nonempty
      omega
  · show (if 0 ∈ (level_pamk dn' (L - 1) (oracle dn')).2.map Prod.fst then lvl' + 1
          else t.nodes2levels 0) = 0
    rw [if_neg]
    · exact hb.rootLevel
    · rw [hmds, List.mem_range'_1]
      have := hb.nonempty
      omega
  · intro i hipos hi
    rw [hlenNodes] at hi
    have hnotmem : ∀ m, m < L → m ∉ (level_pamk dn' (L - 1) (oracle dn')).2.map Prod.fst := by
      intro m hm hmem
      rw [hmds, List.mem_range'_1] at hmem
      omega
    by_cases hiL : i < L
    · obtain ⟨p, hp1, hp2, hp3⟩ := hb.parent i hipos hiL
      refine ⟨p, ?_, hp2, ?_⟩
      · show ((t.nodes.set idx _ ++ _).getD i default).parent_node = some p
        rw [list_getD_append_left _ _ _ _ (by simpa using hiL)]
        by_cases hie : i = idx
        · subst hie
          rw [list_getD_set_self _ _ _ _ hiL]
          exact hp1
        · rw [list_getD_set_ne _ _ _ _ _ (fun h => hie h.symm)]
          exact hp1
      · show (if i ∈ _ then lvl' + 1 else t.nodes2levels i)
            = (if p ∈ _ then lvl' + 1 else t.nodes2levels p) + 1
        rw [if_neg (hnotmem i hiL), if_neg (hnotmem p (by omega))]
        exact hp3
    · refine ⟨idx, ?_, by omega, ?_⟩
      · show ((t.nodes.set idx _ ++ _).getD i default).parent_node = some idx
        rw [list_getD_append_right _ _ _ _ (by simpa using hiL)]
        rw [show (t.nodes.set idx _).length = L by simp]
        rw [hmds]
        have hjk : i - L < k := by omega
        rw [List.getD_eq_getElem _ _ (by simpa using hjk)]
        simp only [List.getElem_map]
        rw [List.getElem_range'_1 _ (by simpa using hjk)]
        rfl
      · show (if i ∈ _ then lvl' + 1 else t.nodes2levels i)
            = (if idx ∈ _ then lvl' + 1 else t.nodes2levels idx) + 1
        rw [if_pos, if_neg (hnotmem idx hidx), hlvl]
        rw [hmds, List.mem_range'_1]
        omega
  · simp only [List.map_append, hb.medTable, hmds, List.length_append, List.length_set,
      List.length_map, List.length_range']
    have hr := List.range'_append 1 (L - 1) k 1
    simp only [one_mul] at hr
    rw [show 1 + (L - 1) = L by have := hb.nonempty; omega] at hr
    rw [show L + k - 1 = k + (L - 1) by have := hb.nonempty; omega]
    exact hr

/-! ## Permutation lemmas for the partition invariant -/

/-- On a duplicate-free list, filtering by membership in an in-order
selection recovers exactly that selection. -/
lemma filter_mem_of_sublist : ∀ (l s : List Nat), l.Nodup → s.Sublist l →
    l.filter (fun a => decide (a ∈ s)) = s := by
  intro l
  induction l with
  | nil =>
    intro s _ hs
    simp [List.sublist_nil.mp hs]
  | cons a t ih =>
    intro s hnd hs
    have hat : a ∉ t := (List.nodup_cons.mp hnd).1
    have hndt : t.Nodup := (List.nodup_cons.mp hnd).2
    cases hs with
    | cons _ h =>
      have has : a ∉ s := fun hmem => hat (h.subset hmem)
      rw [List.filter_cons, if_neg (by simpa using has)]
      exact ih s hndt h
    | cons₂ =>
      rename_i s₁ h
      rw [List.filter_cons, if_pos (by simp)]
      have ht : t.filter (fun x => decide (x ∈ a :: s₁))
          = t.filter (fun x => decide (x ∈ s₁)) := by
        apply List.filter_congr
        intro x hx
        have hxa : x ≠ a := fun he => hat (he ▸ hx)
        simp [hxa]
      rw [ht, ih s₁ hndt h]

/-- Prepending a pair whose key occurs in `J` inserts it (up to
permutation) at the head of the concatenated per-key filters. -/
lemma flatMap_filter_cons_perm (f : Nat × Nat → Nat) (p : Nat × Nat) :
    ∀ (J : List Nat) (l : List (Nat × Nat)), J.Nodup → f p ∈ J →
    (J.flatMap (fun j => (p :: l).filter (fun q => decide (f q = j)))).Perm
      (p :: J.flatMap (fun j => l.filter (fun q => decide (f q = j)))) := by
  intro J
  induction J with
  | nil =>
    intro l _ hf
    simp at hf
  | cons j J ih =>
    intro l hnd hf
    have hjJ : j ∉ J := (List.nodup_cons.mp hnd).1
    have hndJ : J.Nodup := (List.nodup_cons.mp hnd).2
    rw [List.flatMap_cons, List.flatMap_cons]
    by_cases hpj : f p = j
    · have hcongr : ∀ j' ∈ J, (p :: l).filter (fun q => decide (f q = j'))
          = l.filter (fun q => decide (f q = j')) := by
        intro j' hj'
        have hne : f p ≠ j' := by
          intro he
          apply hjJ
          rw [← hpj, he]
          exact hj'
        rw [List.filter_cons, if_neg (by simpa using hne)]
      have hflat : J.flatMap (fun j' => (p :: l).filter (fun q => decide (f q = j')))
          = J.flatMap (fun j' => l.filter (fun q => decide (f q = j'))) := by
        rw [List.flatMap_def, List.flatMap_def, List.map_congr_left hcongr]
      rw [hflat, List.filter_cons, if_pos (by simpa using hpj)]
      exact List.Perm.refl _
    · have hfJ : f p ∈ J := by
        cases List.mem_cons.mp hf with
        | inl h => exact absurd h hpj
        | inr h => exact h
      rw [List.filter_cons, if_neg (by simpa using hpj)]
      exact ((ih l hndJ hfJ).append_left _).trans List.perm_middle

/-- Concatenating the per-key filters over `0..k-1` permutes a list of
pairs whose keys all lie below `k`. -/
lemma flatMap_filter_perm (f : Nat × Nat → Nat) (k : Nat) :
    ∀ (l : List (Nat × Nat)), (∀ p ∈ l, f p < k) →
    ((List.range k).flatMap (fun j => l.filter (fun q => decide (f q = j)))).Perm l := by
  intro l
  induction l with
  | nil =>
    intro _
    simp
  | cons p l ih =>
    intro hb
    have h1 := flatMap_filter_cons_perm f p (List.range k) l (List.nodup_range k)
      (List.mem_range.mpr (hb p (List.mem_cons_self p l)))
    exact h1.trans ((ih (fun q hq => hb q (List.mem_cons_of_mem _ hq))).cons p)

/-- The id-membership mask of `fit` recovers, on duplicate-free data,
exactly the rows whose oracle label is `j` (cluster `offset + 1 + j`),
in their original order. -/
lemma childDataOf_eq (dn : List Nat) (labels : List Nat) (offset : Nat) (j : Nat)
    (hnd : dn.Nodup) (hlen : labels.length = dn.length) :
    childDataOf (dn.zip (labels.map (fun l => l + offset + 1))) dn (offset + 1 + j)
      = ((dn.zip labels).filter (fun q => decide (q.2 = j))).map Prod.fst := by
  unfold childDataOf
  have hS : ((dn.zip (labels.map (fun l => l + offset + 1))).filter
      (fun p => decide (p.2 = offset + 1 + j))).map Prod.fst
      = ((dn.zip labels).filter (fun q => decide (q.2 = j))).map Prod.fst := by
    rw [List.zip_map_right, List.filter_map, List.map_map]
    have hcomp : (Prod.fst ∘ Prod.map (id : Nat → Nat) (fun l => l + offset + 1))
        = (Prod.fst : Nat × Nat → Nat) := by
      funext q
      cases q
      rfl
    rw [hcomp]
    congr 1
    apply List.filter_congr
    intro q _
    show decide ((Prod.map id (fun l => l + offset + 1) q).2 = offset + 1 + j)
        = decide (q.2 = j)
    rw [decide_eq_decide, Prod.map_snd]
    omega
  rw [hS]
  apply filter_mem_of_sublist dn _ hnd
  have h1 : ((dn.zip labels).filter (fun q => decide (q.2 = j))).Sublist (dn.zip labels) :=
    List.filter_sublist _
  have h2 := h1.map Prod.fst
  rwa [List.map_fst_zip dn labels (by omega)] at h2

/-- A split step preserves the partition invariant: the children's
masked data lists jointly permute the parent's released data. -/
lemma partInv_applySplit (oracle : Oracle) (hwf : OracleWF oracle)
    (t : TreeState) (ids0 : List Nat) (hp : PartInv t ids0)
    (hne : 0 < t.nodes.length)
    (idx : Nat) (dn' : List Nat) (lvl' : Nat)
    (hidx : idx < t.nodes.length)
    (hdata : (t.nodes.getD idx default).data = some dn')
    (hpr : 1 < (level_pamk dn' (t.nodes.length - 1) (oracle dn')).2.length) :
    PartInv (applySplit idx lvl' (level_pamk dn' (t.nodes.length - 1) (oracle dn')).1
      (level_pamk dn' (t.nodes.length - 1) (oracle dn')).2 dn' t) ids0 := by
  have hk : (oracle dn').k ≠ 1 := by
    intro h1
    rw [show (level_pamk dn' (t.nodes.length - 1) (oracle dn')).2 = [] by
      simp [level_pamk, h1]] at hpr
    simp at hpr
  have hmi : (oracle dn').medoid_indices.length = (oracle dn').k := (hwf dn').2.2
  have hlab : (oracle dn').labels.length = dn'.length := (hwf dn').1
  have hlabk : ∀ l ∈ (oracle dn').labels, l < (oracle dn').k := (hwf dn').2.1
  have hL1 : t.nodes.length - 1 + 1 = t.nodes.length := by omega
  have hmds : (level_pamk dn' (t.nodes.length - 1) (oracle dn')).2.map Prod.fst
      = List.range' t.nodes.length (oracle dn').k := by
    rw [level_pamk_medoid_ids _ _ _ hmi hk, hL1]
  have hcl : (level_pamk dn' (t.nodes.length - 1) (oracle dn')).1
      = dn'.zip ((oracle dn').labels.map (fun l => l + (t.nodes.length - 1) + 1)) :=
    level_pamk_clusters _ _ _ hk
  -- the dequeued node's data list is duplicate-free
  have hmem0 : t.nodes.getD idx default ∈ t.nodes := by
    rw [List.getD_eq_getElem _ _ hidx]
    exact List.getElem_mem hidx
  have hdn'mem : dn' ∈ t.nodes.filterMap Node.data :=
    List.mem_filterMap.mpr ⟨_, hmem0, hdata⟩
  have hnd' : dn'.Nodup := hp.nod dn' hdn'mem
  -- decomposition of the arena at idx
  have hdecomp : t.nodes
      = t.nodes.take idx ++ t.nodes.getD idx default :: t.nodes.drop (idx + 1) := by
    conv_lhs => rw [← List.take_append_drop idx t.nodes]
    rw [List.drop_eq_getElem_cons hidx, List.getD_eq_getElem _ _ hidx]
  have hset : ∀ nd : Node, t.nodes.set idx nd
      = t.nodes.take idx ++ nd :: t.nodes.drop (idx + 1) := by
    intro nd
    rw [List.set_eq_take_append_cons_drop, if_pos hidx]
  -- the concatenation of the children's data permutes the parent's data
  have hchild : (((level_pamk dn' (t.nodes.length - 1) (oracle dn')).2.map Prod.fst).map
      (childDataOf (level_pamk dn' (t.nodes.length - 1) (oracle dn')).1 dn')).flatten.Perm
      dn' := by
    rw [hmds, List.range'_eq_map_range, List.map_map]
    have hmap : ((List.range (oracle dn').k).map
        ((childDataOf (level_pamk dn' (t.nodes.length - 1) (oracle dn')).1 dn')
          ∘ (fun j => t.nodes.length + j)))
        = (List.range (oracle dn').k).map (fun j =>
            ((dn'.zip (oracle dn').labels).filter (fun q => decide (q.2 = j))).map Prod.fst) := by
      apply List.map_congr_left
      intro j _
      show childDataOf (level_pamk dn' (t.nodes.length - 1) (oracle dn')).1 dn'
          (t.nodes.length + j) = _
      rw [show t.nodes.length + j = t.nodes.length - 1 + 1 + j by omega, hcl]
      exact childDataOf_eq dn' (oracle dn').labels (t.nodes.length - 1) j hnd' hlab
    rw [hmap, ← List.flatMap_def]
    have hperm := flatMap_filter_perm Prod.snd (oracle dn').k (dn'.zip (oracle dn').labels)
      (fun p hp' => hlabk p.2 (List.of_mem_zip hp').2)
    have hmapped := hperm.map Prod.fst
    rw [List.map_fst_zip dn' (oracle dn').labels (by omega)] at hmapped
    rw [← List.map_flatMap]
    exact hmapped
  rw [applySplit_closed _ _ _ _ _ _ hidx]
  constructor
  · show ((t.nodes.set idx _ ++ _).filterMap Node.data).flatten.Perm ids0
    rw [hset, List.filterMap_append, List.filterMap_append,
        List.filterMap_cons_none (by rfl)]
    show ((_ ++ _ ++ (((level_pamk dn' (t.nodes.length - 1) (oracle dn')).2.map Prod.fst).map
        (mkChild idx (level_pamk dn' (t.nodes.length - 1) (oracle dn')).1 dn')).filterMap
          Node.data).flatten).Perm ids0
    rw [List.filterMap_map]
    have hfm : (Node.data ∘ mkChild idx (level_pamk dn' (t.nodes.length - 1) (oracle dn')).1 dn')
        = some ∘ childDataOf (level_pamk dn' (t.nodes.length - 1) (oracle dn')).1 dn' := by
      funext n
      rfl
    rw [hfm, List.filterMap_eq_map]
    have hold := hp.part
    rw [hdecomp, List.filterMap_append, List.filterMap_cons_some hdata] at hold
    simp only [List.flatten_append, List.flatten_cons] at hold ⊢
    have step1 := hchild.append_left
      (((t.nodes.take idx).filterMap Node.data).flatten
        ++ ((t.nodes.drop (idx + 1)).filterMap Node.data).flatten)
    have step2 : List.Perm
        ((((t.nodes.take idx).filterMap Node.data).flatten
          ++ ((t.nodes.drop (idx + 1)).filterMap Node.data).flatten) ++ dn')
        (((t.nodes.take idx).filterMap Node.data).flatten
          ++ (dn' ++ ((t.nodes.drop (idx + 1)).filterMap Node.data).flatten)) := by
      rw [List.append_assoc]
      exact List.perm_append_comm.append_left _
    exact (step1.trans step2).trans hold
  · show ∀ l ∈ (t.nodes.set idx _ ++ _).filterMap Node.data, l.Nodup
    intro l hl
    rw [hset] at hl
    rw [List.filterMap_append, List.filterMap_append,
        List.filterMap_cons_none (by rfl), List.filterMap_map] at hl
    have hfm : (Node.data ∘ mkChild idx (level_pamk dn' (t.nodes.length - 1) (oracle dn')).1 dn')
        = some ∘ childDataOf (level_pamk dn' (t.nodes.length - 1) (oracle dn')).1 dn' := by
      funext n
      rfl
    rw [hfm, List.filterMap_eq_map] at hl
    simp only [List.mem_append] at hl
    rcases hl with (hl | hl) | hl
    · refine hp.nod l ?_
      rw [hdecomp, List.filterMap_append]
      exact List.mem_append.mpr (Or.inl hl)
    · refine hp.nod l ?_
      rw [hdecomp, List.filterMap_append, List.filterMap_cons_some hdata]
      exact List.mem_append.mpr (Or.inr (List.mem_cons_of_mem _ hl))
    · obtain ⟨n, _, hn⟩ := List.mem_map.mp hl
      rw [← hn]
      exact hnd'.filter _

/-- After the first pop the root id can never re-enter the queue. -/
lemma zero_not_mem_rest (s : TreeState) (dn : List Nat) (lvl : Nat) (idx : Nat)
    (rest : List Nat) (hb : BaseInv s dn lvl)
    (hq : s.incomplete_nodes = idx :: rest) : 0 ∉ rest := by
  intro h0
  have hc := hb.carry (by rw [hq]; exact List.mem_cons_of_mem _ h0)
  rw [hq] at hc
  cases hc.1
  simp at h0

/-! ## The loop preserves the invariants -/

lemma fitLoop_inv (oracle : Oracle) (hwf : OracleWF oracle) (ids0 : List Nat) :
    ∀ (fuel : Nat) (s : TreeState) (dn : List Nat) (lvl : Nat) (s' : TreeState),
    BaseInv s dn lvl → PartInv s ids0 →
    fitLoop oracle fuel s dn lvl = some s' →
    ∃ s₂ dn₂ lvl₂, s' = finalize s₂ ∧ s₂.incomplete_nodes = [] ∧
      BaseInv s₂ dn₂ lvl₂ ∧ PartInv s₂ ids0 := by
  intro fuel
  induction fuel with
  | zero =>
    intro s dn lvl s' hb hp hloop
    by_cases hq : s.incomplete_nodes = []
    · rw [show fitLoop oracle 0 s dn lvl
          = if s.incomplete_nodes = [] then some (finalize s) else none from rfl,
        if_pos hq] at hloop
      injection hloop with hloop
      exact ⟨s, dn, lvl, hloop.symm, hq, hb, hp⟩
    · rw [show fitLoop oracle 0 s dn lvl
          = if s.incomplete_nodes = [] then some (finalize s) else none from rfl,
        if_neg hq] at hloop
      exact absurd hloop (by simp)
  | succ fuel ih =>
    intro s dn lvl s' hb hp hloop
    cases hq : s.incomplete_nodes with
    | nil =>
      simp only [fitLoop, hq] at hloop
      injection hloop with hloop
      exact ⟨s, dn, lvl, hloop.symm, hq, hb, hp⟩
    | cons idx rest =>
      simp only [fitLoop, hq] at hloop
      by_cases hlen : 2 < (if 0 < idx then (s.nodes.getD idx default).data.getD [] else dn).length
      · rw [if_pos hlen] at hloop
        by_cases hpr : 1 < (level_pamk
            (if 0 < idx then (s.nodes.getD idx default).data.getD [] else dn)
            (s.nodes.length - 1)
            (oracle (if 0 < idx then (s.nodes.getD idx default).data.getD [] else dn))).2.length
        · rw [if_pos hpr] at hloop
          obtain ⟨hidx, hdata, hlvl⟩ := eff_facts s dn lvl idx rest hb hq (by omega)
          have hzero := zero_not_mem_rest s dn lvl idx rest hb hq
          have hbNew := baseInv_applySplit oracle hwf
            { s with incomplete_nodes := rest } dn lvl
            (baseInv_pop s dn lvl idx rest hb hq dn lvl) hzero idx
            (if 0 < idx then (s.nodes.getD idx default).data.getD [] else dn)
            (if 0 < idx then s.nodes2levels idx else lvl)
            hidx hlvl hpr
            (if 0 < idx then (s.nodes.getD idx default).data.getD [] else dn)
            (if 0 < idx then s.nodes2levels idx else lvl)
          have hpNew := partInv_applySplit oracle hwf
            { s with incomplete_nodes := rest } ids0
            (partInv_pop s ids0 rest hp) hb.nonempty idx
            (if 0 < idx then (s.nodes.getD idx default).data.getD [] else dn)
            (if 0 < idx then s.nodes2levels idx else lvl)
            hidx hdata hpr
          exact ih _ _ _ _ hbNew hpNew hloop
        · rw [if_neg hpr] at hloop
          exact ih _ _ _ _ (baseInv_pop s dn lvl idx rest hb hq _ _)
            (partInv_pop s ids0 rest hp) hloop
      · rw [if_neg hlen] at hloop
        exact ih _ _ _ _ (baseInv_pop s dn lvl idx rest hb hq _ _)
          (partInv_pop s ids0 rest hp) hloop

lemma baseInv_finalize (s : TreeState) (dn : List Nat) (lvl : Nat)
    (hb : BaseInv s dn lvl) : BaseInv (finalize s) dn lvl := by
  cases hb
  constructor <;> assumption

lemma partInv_finalize (s : TreeState) (ids0 : List Nat)
    (hp : PartInv s ids0) : PartInv (finalize s) ids0 := by
  cases hp
  constructor <;> assumption

/-- A completed `fit` call satisfies both invariants, has an empty work
queue, and indexes its leaves as exactly the populated nodes. -/
lemma fit_inv (oracle : Oracle) (hwf : OracleWF oracle) (ids : List Nat)
    (hnd : ids.Nodup) (fuel : Nat) (s' : TreeState)
    (h : fit oracle fuel ids = some s') :
    (∃ dn₂ lvl₂, BaseInv s' dn₂ lvl₂) ∧ PartInv s' ids ∧
    s'.incomplete_nodes = [] ∧
    s'.leaf_nodes_idx = (s'.nodes.filter (fun nd => nd.data.isSome)).map Node.name := by
  obtain ⟨s₂, dn₂, lvl₂, hs', hque, hb, hp⟩ :=
    fitLoop_inv oracle hwf ids fuel (initState ids) ids 0 s'
      (baseInv_init ids) (partInv_init ids hnd) h
  subst hs'
  refine ⟨⟨dn₂, lvl₂, baseInv_finalize _ _ _ hb⟩, partInv_finalize _ _ hp, hque, rfl⟩

/-- Looking a node up by its name returns that node. -/
lemma lookup_name (s : TreeState)
    (hnames : ∀ i, i < s.nodes.length → (s.nodes.getD i default).name = i) :
    ∀ nd ∈ s.nodes, nd.name < s.nodes.length ∧ s.nodes.getD nd.name default = nd := by
  intro nd hnd
  obtain ⟨i, hi, hEl⟩ := List.mem_iff_getElem.mp hnd
  have hget : s.nodes.getD i default = nd := by
    rw [List.getD_eq_getElem _ _ hi]
    exact hEl
  have hname : nd.name = i := by
    rw [← hget]
    exact hnames i hi
  rw [hname, hget]
  exact ⟨hi, rfl⟩

/-- The flattened data of nodes that kept their data is the flattened
list of populated data fields. -/
lemma filter_isSome_flatMap (L : List Node) :
    (L.filter (fun nd => nd.data.isSome)).flatMap (fun nd => nd.data.getD [])
    = (L.filterMap Node.data).flatten := by
  induction L with
  | nil => rfl
  | cons nd t ih =>
    cases hdata : nd.data with
    | none =>
      rw [List.filterMap_cons_none hdata, List.filter_cons, if_neg (by simp [hdata])]
      exact ih
    | some d =>
      rw [List.filterMap_cons_some hdata, List.filter_cons, if_pos (by simp [hdata]),
          List.flatten_cons, List.flatMap_cons, hdata]
      rw [ih]
      rfl

/-! ## The parent-pointer walk of `get_clusters` -/

/-- The walk result is always an ancestor-or-self of the start node. -/
lemma climb_ancSelf (s : TreeState) (level : Nat) :
    ∀ (fuel idx : Nat), AncSelf s (climb s level fuel idx) idx := by
  intro fuel
  induction fuel with
  | zero =>
    intro idx
    exact AncSelf.refl idx
  | succ fuel ih =>
    intro idx
    rw [climb]
    by_cases hlt : level < s.nodes2levels idx
    · rw [if_pos hlt]
      exact AncSelf.step _ _ (ih (parentOf s idx))
    · rw [if_neg hlt]
      exact AncSelf.refl idx

/-- With the parent invariant, the walk from a node of depth at most
`fuel` stops at a valid node of depth at most `level`. -/
lemma climb_depth (s : TreeState)
    (hpar : ∀ i, 0 < i → i < s.nodes.length →
      ∃ p, (s.nodes.getD i default).parent_node = some p ∧ p < i ∧
        s.nodes2levels i = s.nodes2levels p + 1)
    (hroot : s.nodes2levels 0 = 0) (level : Nat) :
    ∀ (fuel idx : Nat), idx < s.nodes.length → s.nodes2levels idx ≤ fuel →
    s.nodes2levels (climb s level fuel idx) ≤ level ∧
      climb s level fuel idx < s.nodes.length := by
  intro fuel
  induction fuel with
  | zero =>
    intro idx hidx hdep
    rw [climb]
    constructor
    · omega
    · exact hidx
  | succ fuel ih =>
    intro idx hidx hdep
    rw [climb]
    by_cases hlt : level < s.nodes2levels idx
    · rw [if_pos hlt]
      have hidx0 : 0 < idx := by
        by_contra h0
        have : idx = 0 := by omega
        rw [this, hroot] at hlt
        omega
      obtain ⟨p, hp1, hp2, hp3⟩ := hpar idx hidx0 hidx
      have hpar' : parentOf s idx = p := by
        unfold parentOf
        rw [hp1]
        rfl
      rw [hpar']
      exact ih p (by omega) (by omega)
    · rw [if_neg hlt]
      exact ⟨by omega, hidx⟩

/-! ## A one-iteration runner for the loop body -/

/-- One iteration of `fit`'s `while` loop as a total function on the
loop state (builder state plus the `data_node`/`level` locals); the
identity on an empty queue. -/
def fitStep (oracle : Oracle) (s : TreeState) (dn : List Nat) (lvl : Nat) :
    TreeState × List Nat × Nat :=
  match s.incomplete_nodes with
  | [] => (s, dn, lvl)
  | idx :: rest =>
    let s1 : TreeState := { s with incomplete_nodes := rest }
    let dn' := if 0 < idx then ((s1.nodes.getD idx default).data).getD [] else dn
    let lvl' := if 0 < idx then s1.nodes2levels idx else lvl
    if 2 < dn'.length then
      let pr := level_pamk dn' (s1.nodes.length - 1) (oracle dn')
      if 1 < pr.2.length then (applySplit idx lvl' pr.1 pr.2 dn' s1, dn', lvl')
      else (s1, dn', lvl')
    else (s1, dn', lvl')

/-- The loop state after `j` iterations of `fit` on input `ids`. -/
def fitStates (oracle : Oracle) (ids : List Nat) : Nat → TreeState × List Nat × Nat
  | 0 => (initState ids, ids, 0)
  | j+1 =>
    let t := fitStates oracle ids j
    fitStep oracle t.1 t.2.1 t.2.2

/-- `fitLoop` steps through `fitStep` while the queue is non-empty. -/
lemma fitLoop_fitStep (oracle : Oracle) (fuel : Nat) (s : TreeState)
    (dn : List Nat) (lvl : Nat) (hne : s.incomplete_nodes ≠ []) :
    fitLoop oracle (fuel+1) s dn lvl =
      fitLoop oracle fuel (fitStep oracle s dn lvl).1
        (fitStep oracle s dn lvl).2.1 (fitStep oracle s dn lvl).2.2 := by
  cases hq : s.incomplete_nodes with
  | nil => exact absurd hq hne
  | cons idx rest =>
    simp only [fitLoop, fitStep, hq]
    by_cases hlen : 2 < (if 0 < idx then (s.nodes.getD idx default).data.getD [] else dn).length
    · rw [if_pos hlen, if_pos hlen]
      by_cases hpr : 1 < (level_pamk
          (if 0 < idx then (s.nodes.getD idx default).data.getD [] else dn)
          (s.nodes.length - 1)
          (oracle (if 0 < idx then (s.nodes.getD idx default).data.getD [] else dn))).2.length
      · rw [if_pos hpr, if_pos hpr]
      · rw [if_neg hpr, if_neg hpr]
    · rw [if_neg hlen, if_neg hlen]

/-- One loop iteration preserves the structural invariant. -/
lemma baseInv_fitStep (oracle : Oracle) (hwf : OracleWF oracle)
    (s : TreeState) (dn : List Nat) (lvl : Nat) (hb : BaseInv s dn lvl) :
    BaseInv (fitStep oracle s dn lvl).1
      (fitStep oracle s dn lvl).2.1 (fitStep oracle s dn lvl).2.2 := by
  cases hq : s.incomplete_nodes with
  | nil =>
    simp only [fitStep, hq]
    exact hb
  | cons idx rest =>
    simp only [fitStep, hq]
    by_cases hlen : 2 < (if 0 < idx then (s.nodes.getD idx default).data.getD [] else dn).length
    · rw [if_pos hlen]
      by_cases hpr : 1 < (level_pamk
          (if 0 < idx then (s.nodes.getD idx default).data.getD [] else dn)
          (s.nodes.length - 1)
          (oracle (if 0 < idx then (s.nodes.getD idx default).data.getD [] else dn))).2.length
      · rw [if_pos hpr]
        obtain ⟨hidx, hdata, hlvl⟩ := eff_facts s dn lvl idx rest hb hq (by omega)
        exact baseInv_applySplit oracle hwf { s with incomplete_nodes := rest } dn lvl
          (baseInv_pop s dn lvl idx rest hb hq dn lvl)
          (zero_not_mem_rest s dn lvl idx rest hb hq) idx
          (if 0 < idx then (s.nodes.getD idx default).data.getD [] else dn)
          (if 0 < idx then s.nodes2levels idx else lvl)
          hidx hlvl hpr _ _
      · rw [if_neg hpr]
        exact baseInv_pop s dn lvl idx rest hb hq _ _
    · rw [if_neg hlen]
      exact baseInv_pop s dn lvl idx rest hb hq _ _

/-- The structural invariant holds at every point of the run. -/
lemma baseInv_fitStates (oracle : Oracle) (hwf : OracleWF oracle)
    (ids : List Nat) : ∀ j : Nat,
    BaseInv (fitStates oracle ids j).1
      (fitStates oracle ids j).2.1 (fitStates oracle ids j).2.2 := by
  intro j
  induction j with
  | zero => exact baseInv_init ids
  | succ j ih => exact baseInv_fitStep oracle hwf _ _ _ ih

/-- A loop run whose queue is already empty immediately finalizes. -/
lemma fitLoop_empty (oracle : Oracle) (fuel : Nat) (s : TreeState)
    (dn : List Nat) (lvl : Nat) (h : s.incomplete_nodes = []) :
    fitLoop oracle fuel s dn lvl = some (finalize s) := by
  cases fuel with
  | zero =>
    rw [show fitLoop oracle 0 s dn lvl
        = if s.incomplete_nodes = [] then some (finalize s) else none from rfl, if_pos h]
  | succ fuel => simp only [fitLoop, h]

/-! ## A concrete oracle and completed run, used by the witnesses -/

/-- A concrete well-formed oracle: splits a 3-row table into clusters
of 2 and 1 rows, declines to split (k = 1) everywhere else. -/
def oracle0 : Oracle := fun ids =>
  if ids.length = 3 then ⟨2, [0, 0, 1], [0, 2]⟩
  else ⟨1, ids.map (fun _ => 0), [0]⟩

lemma oracle0_wf : OracleWF oracle0 := by
  intro ids
  by_cases h : ids.length = 3 <;> simp [oracle0, h]

/-- The completed tree of `fit oracle0 5 [5, 6, 7]`. -/
def sWit : TreeState := (fit oracle0 5 [5, 6, 7]).getD (initState [])

/-! ## Claim theorems for the tree builder -/

/-- C1: for every completed call to `fit` on a table with unique ids
(and a well-formed oracle per its contract, section 6 of the spec), the
row-id lists held by the nodes whose `data` is still populated are
pairwise disjoint and together are a permutation of the input id list —
no row is duplicated or dropped across leaves — and `leaf_nodes_idx`
names exactly those populated nodes. -/
theorem fit_partition_invariant (oracle : Oracle) (fuel : Nat) (ids : List Nat)
    (s : TreeState) (hnd : ids.Nodup) (hwf : OracleWF oracle)
    (h : fit oracle fuel ids = some s) :
    ((s.nodes.filterMap Node.data).flatten).Perm ids ∧
    (s.nodes.filterMap Node.data).Pairwise List.Disjoint ∧
    s.leaf_nodes_idx = (s.nodes.filter (fun nd => nd.data.isSome)).map Node.name := by
  obtain ⟨_, hp, _, hleaf⟩ := fit_inv oracle hwf ids hnd fuel s h
  refine ⟨hp.part, ?_, hleaf⟩
  exact (List.nodup_flatten.mp (hp.part.nodup_iff.mpr hnd)).2

theorem fit_partition_invariant_witness :
    ([5, 6, 7] : List Nat).Nodup ∧ OracleWF oracle0 ∧
    (((sWit.nodes.filterMap Node.data).flatten).Perm [5, 6, 7] ∧
     (sWit.nodes.filterMap Node.data).Pairwise List.Disjoint ∧
     sWit.leaf_nodes_idx = (sWit.nodes.filter (fun nd => nd.data.isSome)).map Node.name) :=
  ⟨by decide, oracle0_wf,
   fit_partition_invariant oracle0 5 [5, 6, 7] sWit (by decide) oracle0_wf rfl⟩

/-- C10: the arena invariant `nodes[i].name = i`.  It holds at every
point of the run (`fitStates` is the loop state after `j` iterations,
and `fitLoop` — hence `fit` — steps through exactly these states while
the queue is non-empty), and on every completed tree, so looking a node
up by id via list indexing returns the node with that id. -/
theorem node_name_index_invariant :
    (∀ (oracle : Oracle) (ids : List Nat) (j : Nat), OracleWF oracle →
      ∀ i, i < ((fitStates oracle ids j).1).nodes.length →
        (((fitStates oracle ids j).1).nodes.getD i default).name = i) ∧
    (∀ (oracle : Oracle) (fuel : Nat) (s : TreeState) (dn : List Nat) (lvl : Nat),
      s.incomplete_nodes ≠ [] →
      fitLoop oracle (fuel+1) s dn lvl =
        fitLoop oracle fuel (fitStep oracle s dn lvl).1
          (fitStep oracle s dn lvl).2.1 (fitStep oracle s dn lvl).2.2) ∧
    (∀ (oracle : Oracle) (ids : List Nat) (fuel : Nat) (s : TreeState),
      ids.Nodup → OracleWF oracle → fit oracle fuel ids = some s →
      (∀ i, i < s.nodes.length → (s.nodes.getD i default).name = i) ∧
      ∀ nd ∈ s.nodes, s.nodes.getD nd.name default = nd) := by
  refine ⟨?_, ?_, ?_⟩
  · intro oracle ids j hwf
    exact (baseInv_fitStates oracle hwf ids j).names
  · intro oracle fuel s dn lvl hne
    exact fitLoop_fitStep oracle fuel s dn lvl hne
  · intro oracle ids fuel s hnd hwf h
    obtain ⟨⟨dn₂, lvl₂, hb⟩, _, _, _⟩ := fit_inv oracle hwf ids hnd fuel s h
    refine ⟨hb.names, ?_⟩
    intro nd hmem
    exact (lookup_name s hb.names nd hmem).2

theorem node_name_index_invariant_witness :
    OracleWF oracle0 ∧ ([5, 6, 7] : List Nat).Nodup ∧
    (initState [5, 6, 7]).incomplete_nodes ≠ [] ∧
    (∀ i, i < ((fitStates oracle0 [5, 6, 7] 2).1).nodes.length →
      (((fitStates oracle0 [5, 6, 7] 2).1).nodes.getD i default).name = i) ∧
    (fitLoop oracle0 1 (initState [5, 6, 7]) [5, 6, 7] 0 =
      fitLoop oracle0 0 (fitStep oracle0 (initState [5, 6, 7]) [5, 6, 7] 0).1
        (fitStep oracle0 (initState [5, 6, 7]) [5, 6, 7] 0).2.1
        (fitStep oracle0 (initState [5, 6, 7]) [5, 6, 7] 0).2.2) ∧
    ((∀ i, i < sWit.nodes.length → (sWit.nodes.getD i default).name = i) ∧
     ∀ nd ∈ sWit.nodes, sWit.nodes.getD nd.name default = nd) :=
  ⟨oracle0_wf, by decide, by decide,
   node_name_index_invariant.1 oracle0 [5, 6, 7] 2 oracle0_wf,
   node_name_index_invariant.2.1 oracle0 0 (initState [5, 6, 7]) [5, 6, 7] 0 (by decide),
   node_name_index_invariant.2.2 oracle0 [5, 6, 7] 5 sWit (by decide) oracle0_wf rfl⟩

/-- C3: a table with 1 or 2 rows yields a tree whose only node is the
root, still holding its data, as the sole leaf, whatever the oracle
returns; and, in general, one loop iteration on a dequeued node whose
effective row count is at most 2 only pops the queue — the builder
state is otherwise untouched, and the step does not depend on the
oracle (the oracle is not invoked). -/
theorem small_node_short_circuit :
    (∀ (oracle : Oracle) (fuel : Nat) (ids : List Nat),
      1 ≤ ids.length → ids.length ≤ 2 →
      (fit oracle (fuel+1) ids).map
          (fun s => (s.nodes, s.incomplete_nodes, s.medoids, s.leaf_nodes_idx))
        = some ([⟨0, none, [], some ids⟩], [], [], [0])) ∧
    (∀ (oracle oracle' : Oracle) (s : TreeState) (dn : List Nat) (lvl : Nat)
       (idx : Nat) (rest : List Nat), s.incomplete_nodes = idx :: rest →
      (if 0 < idx then ((s.nodes.getD idx default).data).getD [] else dn).length ≤ 2 →
      fitStep oracle s dn lvl =
        ({ s with incomplete_nodes := rest },
         if 0 < idx then ((s.nodes.getD idx default).data).getD [] else dn,
         if 0 < idx then s.nodes2levels idx else lvl) ∧
      fitStep oracle s dn lvl = fitStep oracle' s dn lvl) := by
  constructor
  · intro oracle fuel ids h1 h2
    have hstep : fit oracle (fuel+1) ids
        = some (finalize { initState ids with incomplete_nodes := [] }) := by
      show fitLoop oracle (fuel+1) (initState ids) ids 0 = _
      simp only [fitLoop, initState, lt_self_iff_false, if_false]
      rw [if_neg (by omega)]
      exact fitLoop_empty oracle fuel _ _ _ rfl
    rw [hstep]
    rfl
  · intro oracle oracle' s dn lvl idx rest hq hlen
    have hstep : ∀ orc : Oracle, fitStep orc s dn lvl =
        ({ s with incomplete_nodes := rest },
         if 0 < idx then ((s.nodes.getD idx default).data).getD [] else dn,
         if 0 < idx then s.nodes2levels idx else lvl) := by
      intro orc
      simp only [fitStep, hq]
      rw [if_neg (by omega)]
    exact ⟨hstep oracle, by rw [hstep oracle, hstep oracle']⟩

theorem small_node_short_circuit_witness :
    1 ≤ ([7] : List Nat).length ∧ ([7] : List Nat).length ≤ 2 ∧
    ((fit oracle0 1 [7]).map
        (fun s => (s.nodes, s.incomplete_nodes, s.medoids, s.leaf_nodes_idx))
      = some ([⟨0, none, [], some [7]⟩], [], [], [0])) ∧
    (initState [7]).incomplete_nodes = 0 :: [] ∧
    (fitStep oracle0 (initState [7]) [7] 0 =
        ({ initState [7] with incomplete_nodes := [] },
         if 0 < 0 then (((initState [7]).nodes.getD 0 default).data).getD [] else [7],
         if 0 < 0 then (initState [7]).nodes2levels 0 else 0) ∧
      fitStep oracle0 (initState [7]) [7] 0 = fitStep oracle0 (initState [7]) [7] 0) :=
  ⟨by decide, by decide,
   small_node_short_circuit.1 oracle0 0 [7] (by decide) (by decide),
   rfl,
   small_node_short_circuit.2 oracle0 oracle0 (initState [7]) [7] 0 0 [] rfl (by decide)⟩

/-- C8 counterexample: the very first split of `fit oracle0 5 [5,6,7]`
is computed when the tree has exactly 1 node (the root), and the oracle
chooses k = 2; the claim predicts cluster ids
`tree_size + 1 .. tree_size + k = [2, 3]`, but the code records
`[1, 2]` (offset `len(nodes) - 1 = 0`, ids `offset+1 .. offset+k`). -/
theorem medoid_cluster_ids_counterexample :
    (initState [5, 6, 7]).nodes.length = 1 ∧
    (oracle0 [5, 6, 7]).k = 2 ∧
    (fit oracle0 5 [5, 6, 7]).map (fun s => s.medoids.map Prod.fst) = some [1, 2] ∧
    ([1, 2] : List Nat) ≠ List.range' (1 + 1) 2 := by
  refine ⟨rfl, rfl, rfl, by decide⟩

/-- C8 amended: for every accepted split with k > 1 clusters, the k
cluster ids recorded in the medoid table are `offset+1 .. offset+k`
where `offset = current_tree_size - 1`; that is, they are
`current_tree_size .. current_tree_size + k - 1` (not
`current_tree_size + 1 .. current_tree_size + k`), and on every
completed tree the accumulated cluster ids are exactly
`1 .. number_of_nodes - 1` in allocation order, hence globally unique
across the whole tree. -/
theorem medoid_cluster_ids_amended :
    (∀ (ids : List Nat) (offset : Nat) (res : PamRes),
      res.medoid_indices.length = res.k → res.k ≠ 1 →
      (level_pamk ids offset res).2.map Prod.fst = List.range' (offset + 1) res.k) ∧
    (∀ (oracle : Oracle) (fuel : Nat) (ids : List Nat) (s : TreeState),
      ids.Nodup → OracleWF oracle → fit oracle fuel ids = some s →
      s.medoids.map Prod.fst = List.range' 1 (s.nodes.length - 1) ∧
      (s.medoids.map Prod.fst).Nodup) := by
  constructor
  · exact level_pamk_medoid_ids
  · intro oracle fuel ids s hnd hwf h
    obtain ⟨⟨dn₂, lvl₂, hb⟩, _, _, _⟩ := fit_inv oracle hwf ids hnd fuel s h
    refine ⟨hb.medTable, ?_⟩
    rw [hb.medTable]
    exact List.nodup_range' _ _

/-! ## Field accessors for a split step -/

lemma applySplit_incomplete (idx lvl : Nat) (cl md : List (Nat × Nat)) (dn : List Nat)
    (t : TreeState) (hidx : idx < t.nodes.length) :
    (applySplit idx lvl cl md dn t).incomplete_nodes
      = t.incomplete_nodes ++ md.map Prod.fst := by
  rw [applySplit_closed _ _ _ _ _ _ hidx]

lemma applySplit_length (idx lvl : Nat) (cl md : List (Nat × Nat)) (dn : List Nat)
    (t : TreeState) (hidx : idx < t.nodes.length) :
    (applySplit idx lvl cl md dn t).nodes.length
      = t.nodes.length + (md.map Prod.fst).length := by
  rw [applySplit_closed _ _ _ _ _ _ hidx]
  simp

lemma applySplit_n2l (idx lvl : Nat) (cl md : List (Nat × Nat)) (dn : List Nat)
    (t : TreeState) (hidx : idx < t.nodes.length) :
    (applySplit idx lvl cl md dn t).nodes2levels
      = fun m => if m ∈ md.map Prod.fst then lvl + 1 else t.nodes2levels m := by
  rw [applySplit_closed _ _ _ _ _ _ hidx]

/-- The shape of the cluster-id column produced by an accepted split. -/
lemma split_mds (oracle : Oracle) (hwf : OracleWF oracle) (dn' : List Nat) (L : Nat)
    (hL : 0 < L)
    (hpr : 1 < (level_pamk dn' (L - 1) (oracle dn')).2.length) :
    (level_pamk dn' (L - 1) (oracle dn')).2.map Prod.fst
      = List.range' L (oracle dn').k ∧ 2 ≤ (oracle dn').k := by
  have hk : (oracle dn').k ≠ 1 := by
    intro h1
    rw [show (level_pamk dn' (L - 1) (oracle dn')).2 = [] by
      simp [level_pamk, h1]] at hpr
    simp at hpr
  have hmi : (oracle dn').medoid_indices.length = (oracle dn').k := (hwf dn').2.2
  constructor
  · rw [level_pamk_medoid_ids _ _ _ hmi hk, show L - 1 + 1 = L by omega]
  · rw [level_pamk_medoids_length _ _ _ hmi hk] at hpr
    omega

/-- `fitLoop` only grows the arena and never re-keys the level of an
already-allocated node. -/
lemma fitLoop_stable (oracle : Oracle) (hwf : OracleWF oracle) :
    ∀ (fuel : Nat) (s : TreeState) (dn : List Nat) (lvl : Nat) (s' : TreeState),
    BaseInv s dn lvl →
    fitLoop oracle fuel s dn lvl = some s' →
    s.nodes.length ≤ s'.nodes.length ∧
    ∀ x, x < s.nodes.length → s'.nodes2levels x = s.nodes2levels x := by
  intro fuel
  induction fuel with
  | zero =>
    intro s dn lvl s' hb hloop
    by_cases hq : s.incomplete_nodes = []
    · rw [show fitLoop oracle 0 s dn lvl
          = if s.incomplete_nodes = [] then some (finalize s) else none from rfl,
        if_pos hq] at hloop
      injection hloop with hloop
      rw [← hloop]
      exact ⟨le_refl _, fun x _ => rfl⟩
    · rw [show fitLoop oracle 0 s dn lvl
          = if s.incomplete_nodes = [] then some (finalize s) else none from rfl,
        if_neg hq] at hloop
      exact absurd hloop (by simp)
  | succ fuel ih =>
    intro s dn lvl s' hb hloop
    cases hq : s.incomplete_nodes with
    | nil =>
      simp only [fitLoop, hq] at hloop
      injection hloop with hloop
      rw [← hloop]
      exact ⟨le_refl _, fun x _ => rfl⟩
    | cons idx rest =>
      simp only [fitLoop, hq] at hloop
      by_cases hlen : 2 < (if 0 < idx then (s.nodes.getD idx default).data.getD [] else dn).length
      · rw [if_pos hlen] at hloop
        by_cases hpr : 1 < (level_pamk
            (if 0 < idx then (s.nodes.getD idx default).data.getD [] else dn)
            (s.nodes.length - 1)
            (oracle (if 0 < idx then (s.nodes.getD idx default).data.getD [] else dn))).2.length
        · rw [if_pos hpr] at hloop
          obtain ⟨hidx, hdata, hlvl⟩ := eff_facts s dn lvl idx rest hb hq (by omega)
          have hbNew := baseInv_applySplit oracle hwf
            { s with incomplete_nodes := rest } dn lvl
            (baseInv_pop s dn lvl idx rest hb hq dn lvl)
            (zero_not_mem_rest s dn lvl idx rest hb hq) idx
            (if 0 < idx then (s.nodes.getD idx default).data.getD [] else dn)
            (if 0 < idx then s.nodes2levels idx else lvl)
            hidx hlvl hpr
            (if 0 < idx then (s.nodes.getD idx default).data.getD [] else dn)
            (if 0 < idx then s.nodes2levels idx else lvl)
          obtain ⟨hlen', hlev'⟩ := ih _ _ _ _ hbNew hloop
          obtain ⟨hmds, hk2⟩ := split_mds oracle hwf
            (if 0 < idx then (s.nodes.getD idx default).data.getD [] else dn)
            s.nodes.length hb.nonempty hpr
          have hstep_len := applySplit_length idx
            (if 0 < idx then s.nodes2levels idx else lvl)
            (level_pamk (if 0 < idx then (s.nodes.getD idx default).data.getD [] else dn)
              (s.nodes.length - 1)
              (oracle (if 0 < idx then (s.nodes.getD idx default).data.getD [] else dn))).1
            (level_pamk (if 0 < idx then (s.nodes.getD idx default).data.getD [] else dn)
              (s.nodes.length - 1)
              (oracle (if 0 < idx then (s.nodes.getD idx default).data.getD [] else dn))).2
            (if 0 < idx then (s.nodes.getD idx default).data.getD [] else dn)
            { s with incomplete_nodes := rest } hidx
          have hstep_n2l := applySplit_n2l idx
            (if 0 < idx then s.nodes2levels idx else lvl)
            (level_pamk (if 0 < idx then (s.nodes.getD idx default).data.getD [] else dn)
              (s.nodes.length - 1)
              (oracle (if 0 < idx then (s.nodes.getD idx default).data.getD [] else dn))).1
            (level_pamk (if 0 < idx then (s.nodes.getD idx default).data.getD [] else dn)
              (s.nodes.length - 1)
              (oracle (if 0 < idx then (s.nodes.getD idx default).data.getD [] else dn))).2
            (if 0 < idx then (s.nodes.getD idx default).data.getD [] else dn)
            { s with incomplete_nodes := rest } hidx
          dsimp only at hlen' hlev' hstep_len hstep_n2l
          rw [hstep_len] at hlen'
          constructor
          · omega
          · intro x hx
            rw [hlev' x (by rw [hstep_len]; omega), hstep_n2l]
            dsimp only
            rw [if_neg]
            rw [hmds, List.mem_range'_1]
            omega
        · rw [if_neg hpr] at hloop
          exact ih { s with incomplete_nodes := rest } _ _ s'
            (baseInv_pop s dn lvl idx rest hb hq _ _) hloop
      · rw [if_neg hlen] at hloop
        exact ih { s with incomplete_nodes := rest } _ _ s'
          (baseInv_pop s dn lvl idx rest hb hq _ _) hloop

/-! ## Breadth-first order of the work queue -/

/-- The queue's depths always form a block of some `d` followed by a
block of `d + 1`. -/
def QPat (s : TreeState) (d : Nat) : Prop :=
  ∃ a b, s.incomplete_nodes.map s.nodes2levels
    = List.replicate a d ++ List.replicate b (d + 1)

lemma qpat_init (ids : List Nat) : QPat (initState ids) 0 :=
  ⟨1, 0, by simp [initState]⟩

/-- A queue obtained by dropping the head of a patterned queue and
appending children one level below the dequeued node keeps the
pattern, rebased at the dequeued node's level. -/
lemma qpat_next (T : TreeState) (sLvl : Nat → Nat) (rest M : List Nat)
    (a b d c : Nat)
    (hq : T.incomplete_nodes = rest ++ M)
    (hrest : ∀ x ∈ rest, T.nodes2levels x = sLvl x)
    (hM : ∀ x ∈ M, T.nodes2levels x = c + 1)
    (hpat : (rest.map sLvl = List.replicate (a - 1) d ++ List.replicate b (d + 1) ∧ c = d)
          ∨ (rest.map sLvl = List.replicate (b - 1) (d + 1) ∧ c = d + 1)) :
    QPat T c := by
  have hmap : T.incomplete_nodes.map T.nodes2levels
      = rest.map sLvl ++ List.replicate M.length (c + 1) := by
    rw [hq, List.map_append]
    congr 1
    · exact List.map_congr_left hrest
    · rw [List.eq_replicate_iff]
      refine ⟨by simp, ?_⟩
      intro z hz
      obtain ⟨x, hx, hfx⟩ := List.mem_map.mp hz
      rw [← hfx]
      exact hM x hx
  rcases hpat with ⟨hr, hc⟩ | ⟨hr, hc⟩
  · subst hc
    exact ⟨a - 1, b + M.length,
      by rw [hmap, hr, List.replicate_add, List.append_assoc]⟩
  · subst hc
    exact ⟨b - 1, M.length, by rw [hmap, hr]⟩

/-- The dequeue order of a completed run is sorted by depth, measured
in the final state's level map (an allocated id never changes level
once assigned). -/
lemma fitTrace_sorted (oracle : Oracle) (hwf : OracleWF oracle) :
    ∀ (fuel : Nat) (s : TreeState) (dn : List Nat) (lvl : Nat) (s' : TreeState) (d : Nat),
    BaseInv s dn lvl → QPat s d →
    fitLoop oracle fuel s dn lvl = some s' →
    ((fitTrace oracle fuel s dn lvl).map s'.nodes2levels).Sorted (· ≤ ·) ∧
    (∀ y ∈ fitTrace oracle fuel s dn lvl, d ≤ s'.nodes2levels y) := by
  intro fuel
  induction fuel with
  | zero =>
    intro s dn lvl s' d hb hpat hloop
    constructor
    · simp [fitTrace]
    · intro y hy
      simp [fitTrace] at hy
  | succ fuel ih =>
    intro s dn lvl s' d hb hpat hloop
    cases hq : s.incomplete_nodes with
    | nil =>
      simp only [fitTrace, hq]
      exact ⟨by simp, by intro y hy; simp at hy⟩
    | cons idx rest =>
      obtain ⟨a, b, hpl⟩ := hpat
      rw [hq, List.map_cons] at hpl
      have hidxq : idx < s.nodes.length :=
        hb.queueBound idx (by rw [hq]; exact List.mem_cons_self _ _)
      have hrestq : ∀ x ∈ rest, x < s.nodes.length := fun x hx =>
        hb.queueBound x (by rw [hq]; exact List.mem_cons_of_mem _ hx)
      have hhead : (rest.map s.nodes2levels
              = List.replicate (a - 1) d ++ List.replicate b (d + 1)
            ∧ s.nodes2levels idx = d)
          ∨ (rest.map s.nodes2levels = List.replicate (b - 1) (d + 1)
            ∧ s.nodes2levels idx = d + 1) := by
        cases a with
        | zero =>
          cases b with
          | zero => simp at hpl
          | succ b' =>
            rw [List.replicate_succ, List.replicate, List.nil_append,
              List.cons.injEq] at hpl
            refine Or.inr ⟨?_, hpl.1⟩
            rw [hpl.2]
            simp
        | succ a' =>
          rw [List.replicate_succ, List.cons_append, List.cons.injEq] at hpl
          refine Or.inl ⟨?_, hpl.1⟩
          rw [hpl.2]
          simp
      have hd_le : d ≤ s.nodes2levels idx := by
        rcases hhead with ⟨_, h⟩ | ⟨_, h⟩ <;> omega
      simp only [fitLoop, hq] at hloop
      simp only [fitTrace, hq]
      by_cases hlen : 2 < (if 0 < idx then (s.nodes.getD idx default).data.getD [] else dn).length
      · rw [if_pos hlen] at hloop ⊢
        by_cases hpr : 1 < (level_pamk
            (if 0 < idx then (s.nodes.getD idx default).data.getD [] else dn)
            (s.nodes.length - 1)
            (oracle (if 0 < idx then (s.nodes.getD idx default).data.getD [] else dn))).2.length
        · rw [if_pos hpr] at hloop ⊢
          obtain ⟨hidx, hdata, hlvl⟩ := eff_facts s dn lvl idx rest hb hq (by omega)
          obtain ⟨hmds, hk2⟩ := split_mds oracle hwf
            (if 0 < idx then (s.nodes.getD idx default).data.getD [] else dn)
            s.nodes.length hb.nonempty hpr
          set dnE := (if 0 < idx then (s.nodes.getD idx default).data.getD [] else dn)
            with hdnE
          set lvlE := (if 0 < idx then s.nodes2levels idx else lvl) with hlvlE
          set prE := level_pamk dnE (s.nodes.length - 1) (oracle dnE) with hprE
          have hbNew := baseInv_applySplit oracle hwf
            { s with incomplete_nodes := rest } dn lvl
            (baseInv_pop s dn lvl idx rest hb hq dn lvl)
            (zero_not_mem_rest s dn lvl idx rest hb hq) idx dnE lvlE
            hidx hlvl hpr dnE lvlE
          have hqueue := applySplit_incomplete idx lvlE prE.1 prE.2 dnE
            { s with incomplete_nodes := rest } hidx
          have hn2l := applySplit_n2l idx lvlE prE.1 prE.2 dnE
            { s with incomplete_nodes := rest } hidx
          have hstep_len := applySplit_length idx lvlE prE.1 prE.2 dnE
            { s with incomplete_nodes := rest } hidx
          dsimp only at hqueue hn2l hstep_len
          have hrest_lvl : ∀ x ∈ rest,
              (applySplit idx lvlE prE.1 prE.2 dnE
                { s with incomplete_nodes := rest }).nodes2levels x
              = s.nodes2levels x := by
            intro x hx
            rw [hn2l]
            dsimp only
            rw [if_neg]
            rw [hmds, List.mem_range'_1]
            have := hrestq x hx
            omega
          have hmds_lvl : ∀ x ∈ prE.2.map Prod.fst,
              (applySplit idx lvlE prE.1 prE.2 dnE
                { s with incomplete_nodes := rest }).nodes2levels x
              = s.nodes2levels idx + 1 := by
            intro x hx
            rw [hn2l]
            dsimp only
            rw [if_pos hx, hlvl]
          have hpatNew : QPat (applySplit idx lvlE prE.1 prE.2 dnE
              { s with incomplete_nodes := rest }) (s.nodes2levels idx) :=
            qpat_next _ s.nodes2levels rest (prE.2.map Prod.fst) a b d
              (s.nodes2levels idx) hqueue hrest_lvl hmds_lvl hhead
          have hIH := ih _ _ _ s' (s.nodes2levels idx) hbNew hpatNew hloop
          have hstab := fitLoop_stable oracle hwf fuel _ _ _ s' hbNew hloop
          have hstab_idx : s'.nodes2levels idx = s.nodes2levels idx := by
            rw [hstab.2 idx (by rw [hstep_len]; omega)]
            rw [hn2l]
            dsimp only
            rw [if_neg]
            rw [hmds, List.mem_range'_1]
            omega
          constructor
          · rw [List.map_cons, List.sorted_cons]
            refine ⟨?_, hIH.1⟩
            intro z hz
            obtain ⟨y, hy, hfy⟩ := List.mem_map.mp hz
            rw [← hfy, hstab_idx]
            exact hIH.2 y hy
          · intro y hy
            rcases List.mem_cons.mp hy with rfl | hy'
            · rw [hstab_idx]
              omega
            · exact le_trans hd_le (hIH.2 y hy')
        · rw [if_neg hpr] at hloop ⊢
          have hbNew := baseInv_pop s dn lvl idx rest hb hq
            (if 0 < idx then (s.nodes.getD idx default).data.getD [] else dn)
            (if 0 < idx then s.nodes2levels idx else lvl)
          have hpatNew : QPat { s with incomplete_nodes := rest }
              (s.nodes2levels idx) :=
            qpat_next _ s.nodes2levels rest [] a b d (s.nodes2levels idx)
              (by simp) (fun x _ => rfl) (by intro x hx; simp at hx) hhead
          have hIH := ih _ _ _ s' (s.nodes2levels idx) hbNew hpatNew hloop
          have hstab := fitLoop_stable oracle hwf fuel _ _ _ s' hbNew hloop
          have hstab_idx : s'.nodes2levels idx = s.nodes2levels idx :=
            hstab.2 idx hidxq
          constructor
          · rw [List.map_cons, List.sorted_cons]
            refine ⟨?_, hIH.1⟩
            intro z hz
            obtain ⟨y, hy, hfy⟩ := List.mem_map.mp hz
            rw [← hfy, hstab_idx]
            exact hIH.2 y hy
          · intro y hy
            rcases List.mem_cons.mp hy with rfl | hy'
            · rw [hstab_idx]
              omega
            · exact le_trans hd_le (hIH.2 y hy')
      · rw [if_neg hlen] at hloop ⊢
        have hbNew := baseInv_pop s dn lvl idx rest hb hq
          (if 0 < idx then (s.nodes.getD idx default).data.getD [] else dn)
          (if 0 < idx then s.nodes2levels idx else lvl)
        have hpatNew : QPat { s with incomplete_nodes := rest }
            (s.nodes2levels idx) :=
          qpat_next _ s.nodes2levels rest [] a b d (s.nodes2levels idx)
            (by simp) (fun x _ => rfl) (by intro x hx; simp at hx) hhead
        have hIH := ih _ _ _ s' (s.nodes2levels idx) hbNew hpatNew hloop
        have hstab := fitLoop_stable oracle hwf fuel _ _ _ s' hbNew hloop
        have hstab_idx : s'.nodes2levels idx = s.nodes2levels idx :=
          hstab.2 idx hidxq
        constructor
        · rw [List.map_cons, List.sorted_cons]
          refine ⟨?_, hIH.1⟩
          intro z hz
          obtain ⟨y, hy, hfy⟩ := List.mem_map.mp hz
          rw [← hfy, hstab_idx]
          exact hIH.2 y hy
        · intro y hy
          rcases List.mem_cons.mp hy with rfl | hy'
          · rw [hstab_idx]
            omega
          · exact le_trans hd_le (hIH.2 y hy')

/-- C7: `fit` is strictly FIFO and breadth-first.  One loop iteration
pops exactly the head of `incomplete_nodes` and appends the ids of the
newly created children to the back, at the moment the split is
accepted (and nothing otherwise); consequently the dequeue order of a
completed run is sorted by node depth — every node of depth `d` is
dequeued before any node of depth `d + 1`. -/
theorem fit_fifo_breadth_first (oracle : Oracle) (fuel : Nat) (ids : List Nat)
    (s : TreeState) (hwf : OracleWF oracle)
    (h : fit oracle fuel ids = some s) :
    ((fitTrace oracle fuel (initState ids) ids 0).map s.nodes2levels).Sorted (· ≤ ·) ∧
    (∀ (oracle' : Oracle) (s₀ : TreeState) (dn : List Nat) (lvl idx : Nat)
       (rest : List Nat), s₀.incomplete_nodes = idx :: rest →
      idx < s₀.nodes.length →
      (fitStep oracle' s₀ dn lvl).1.incomplete_nodes = rest ++
        (if 2 < (if 0 < idx then ((s₀.nodes.getD idx default).data).getD [] else dn).length
            ∧ 1 < (level_pamk
                (if 0 < idx then ((s₀.nodes.getD idx default).data).getD [] else dn)
                (s₀.nodes.length - 1)
                (oracle' (if 0 < idx then ((s₀.nodes.getD idx default).data).getD []
                  else dn))).2.length
         then (level_pamk
                (if 0 < idx then ((s₀.nodes.getD idx default).data).getD [] else dn)
                (s₀.nodes.length - 1)
                (oracle' (if 0 < idx then ((s₀.nodes.getD idx default).data).getD []
                  else dn))).2.map Prod.fst
         else [])) := by
  constructor
  · exact (fitTrace_sorted oracle hwf fuel (initState ids) ids 0 s 0
      (baseInv_init ids) (qpat_init ids) h).1
  · intro oracle' s₀ dn lvl idx rest hq hidx
    simp only [fitStep, hq]
    by_cases hlen : 2 < (if 0 < idx then ((s₀.nodes.getD idx default).data).getD [] else dn).length
    · rw [if_pos hlen]
      by_cases hpr : 1 < (level_pamk
          (if 0 < idx then ((s₀.nodes.getD idx default).data).getD [] else dn)
          (s₀.nodes.length - 1)
          (oracle' (if 0 < idx then ((s₀.nodes.getD idx default).data).getD []
            else dn))).2.length
      · have hcomb : 2 < (if 0 < idx then ((s₀.nodes.getD idx default).data).getD []
              else dn).length
            ∧ 1 < (level_pamk
                (if 0 < idx then ((s₀.nodes.getD idx default).data).getD [] else dn)
                (s₀.nodes.length - 1)
                (oracle' (if 0 < idx then ((s₀.nodes.getD idx default).data).getD []
                  else dn))).2.length := ⟨hlen, hpr⟩
        rw [if_pos hpr, if_pos hcomb]
        have := applySplit_incomplete idx
          (if 0 < idx then s₀.nodes2levels idx else lvl)
          (level_pamk (if 0 < idx then ((s₀.nodes.getD idx default).data).getD [] else dn)
            (s₀.nodes.length - 1)
            (oracle' (if 0 < idx then ((s₀.nodes.getD idx default).data).getD [] else dn))).1
          (level_pamk (if 0 < idx then ((s₀.nodes.getD idx default).data).getD [] else dn)
            (s₀.nodes.length - 1)
            (oracle' (if 0 < idx then ((s₀.nodes.getD idx default).data).getD [] else dn))).2
          (if 0 < idx then ((s₀.nodes.getD idx default).data).getD [] else dn)
          { s₀ with incomplete_nodes := rest } hidx
        dsimp only at this
        exact this
      · have hncomb : ¬(2 < (if 0 < idx then ((s₀.nodes.getD idx default).data).getD []
              else dn).length
            ∧ 1 < (level_pamk
                (if 0 < idx then ((s₀.nodes.getD idx default).data).getD [] else dn)
                (s₀.nodes.length - 1)
                (oracle' (if 0 < idx then ((s₀.nodes.getD idx default).data).getD []
                  else dn))).2.length) := fun hc => hpr hc.2
        rw [if_neg hpr, if_neg hncomb]
        simp
    · have hncomb : ¬(2 < (if 0 < idx then ((s₀.nodes.getD idx default).data).getD []
            else dn).length
          ∧ 1 < (level_pamk
              (if 0 < idx then ((s₀.nodes.getD idx default).data).getD [] else dn)
              (s₀.nodes.length - 1)
              (oracle' (if 0 < idx then ((s₀.nodes.getD idx default).data).getD []
                else dn))).2.length) := fun hc => hlen hc.1
      rw [if_neg hlen, if_neg hncomb]
      simp

theorem fit_fifo_breadth_first_witness :
    OracleWF oracle0 ∧
    (initState [5, 6, 7]).incomplete_nodes = 0 :: [] ∧ 0 < (initState [5, 6, 7]).nodes.length ∧
    (((fitTrace oracle0 5 (initState [5, 6, 7]) [5, 6, 7] 0).map sWit.nodes2levels).Sorted
        (· ≤ ·) ∧
     (∀ (oracle' : Oracle) (s₀ : TreeState) (dn : List Nat) (lvl idx : Nat)
        (rest : List Nat), s₀.incomplete_nodes = idx :: rest →
       idx < s₀.nodes.length →
       (fitStep oracle' s₀ dn lvl).1.incomplete_nodes = rest ++
         (if 2 < (if 0 < idx then ((s₀.nodes.getD idx default).data).getD [] else dn).length
             ∧ 1 < (level_pamk
                 (if 0 < idx then ((s₀.nodes.getD idx default).data).getD [] else dn)
                 (s₀.nodes.length - 1)
                 (oracle' (if 0 < idx then ((s₀.nodes.getD idx default).data).getD []
                   else dn))).2.length
          then (level_pamk
                 (if 0 < idx then ((s₀.nodes.getD idx default).data).getD [] else dn)
                 (s₀.nodes.length - 1)
                 (oracle' (if 0 < idx then ((s₀.nodes.getD idx default).data).getD []
                   else dn))).2.map Prod.fst
          else []))) :=
  ⟨oracle0_wf, rfl, by decide,
   fit_fifo_breadth_first oracle0 5 [5, 6, 7] sWit oracle0_wf rfl⟩

/-- A walk from a node already at or above the requested level is
clamped to the node itself. -/
lemma climb_clamp (s : TreeState) (L fuel idx : Nat)
    (h : s.nodes2levels idx ≤ L) : climb s L fuel idx = idx := by
  cases fuel with
  | zero => rfl
  | succ fuel =>
    rw [climb, if_neg (by omega)]

/-- Membership facts for `leaf_nodes_idx` on a completed tree. -/
lemma leaf_facts (s : TreeState)
    (hnames : ∀ i, i < s.nodes.length → (s.nodes.getD i default).name = i)
    (hleaf : s.leaf_nodes_idx = (s.nodes.filter (fun nd => nd.data.isSome)).map Node.name) :
    ∀ n ∈ s.leaf_nodes_idx, n < s.nodes.length := by
  intro n hn
  rw [hleaf] at hn
  obtain ⟨nd, hnd, hname⟩ := List.mem_map.mp hn
  have := lookup_name s hnames nd (List.mem_of_mem_filter hnd)
  omega

/-- C2: on every completed tree, `get_clusters` at any level `L`
assigns each input row id exactly one cluster id (the projection of its
rows is a permutation of the input ids); every reported pair comes from
a leaf owning that row, with cluster id computed by the upward
parent-pointer walk, hence an ancestor-or-self of the leaf whose stored
depth is at most `L` (a leaf already at depth at most `L` is clamped to
itself); and `level = None` queries the deepest touched level. -/
theorem get_clusters_level_consistency (oracle : Oracle) (fuel : Nat) (ids : List Nat)
    (s : TreeState) (hnd : ids.Nodup) (hwf : OracleWF oracle)
    (h : fit oracle fuel ids = some s) :
    (∀ L : Nat, ((get_clusters s (some L)).map Prod.fst).Perm ids) ∧
    (∀ (L : Nat) (p : Nat × Nat), p ∈ get_clusters s (some L) →
      ∃ n, n ∈ s.leaf_nodes_idx ∧
        p.1 ∈ ((s.nodes.getD n default).data).getD [] ∧
        p.2 = climb s L (s.nodes2levels n) n ∧
        AncSelf s p.2 n ∧
        s.nodes2levels p.2 ≤ L ∧
        (s.nodes2levels n ≤ L → p.2 = n)) ∧
    get_clusters s none = get_clusters s (some (maxKey s.levelKeys)) := by
  obtain ⟨⟨dn₂, lvl₂, hb⟩, hp, hque, hleaf⟩ := fit_inv oracle hwf ids hnd fuel s h
  refine ⟨?_, ?_, rfl⟩
  · intro L
    have hmap : (get_clusters s (some L)).map Prod.fst
        = s.leaf_nodes_idx.flatMap (fun n => ((s.nodes.getD n default).data).getD []) := by
      unfold get_clusters
      rw [List.map_flatMap]
      rw [List.flatMap_def, List.flatMap_def]
      congr 1
      apply List.map_congr_left
      intro n _
      rw [List.map_map]
      exact List.map_id' _
    rw [hmap, hleaf, List.flatMap_map]
    have hcongr : ((s.nodes.filter (fun nd => nd.data.isSome)).flatMap
          (fun a => ((s.nodes.getD a.name default).data).getD []))
        = (s.nodes.filter (fun nd => nd.data.isSome)).flatMap
          (fun nd => nd.data.getD []) := by
      rw [List.flatMap_def, List.flatMap_def]
      congr 1
      apply List.map_congr_left
      intro nd hmem
      show ((s.nodes.getD nd.name default).data).getD [] = nd.data.getD []
      rw [(lookup_name s hb.names nd (List.mem_of_mem_filter hmem)).2]
    rw [hcongr, filter_isSome_flatMap]
    exact hp.part
  · intro L p hmem
    rw [show get_clusters s (some L)
        = s.leaf_nodes_idx.flatMap (fun n =>
            (((s.nodes.getD n default).data).getD []).map
              (fun i => (i, climb s L (s.nodes2levels n) n))) from rfl] at hmem
    obtain ⟨n, hn, hpmem⟩ := List.mem_flatMap.mp hmem
    obtain ⟨i, hi, hpi⟩ := List.mem_map.mp hpmem
    have hnlen : n < s.nodes.length := leaf_facts s hb.names hleaf n hn
    refine ⟨n, hn, ?_, ?_, ?_, ?_, ?_⟩
    · rw [← hpi]
      exact hi
    · rw [← hpi]
    · rw [← hpi]
      exact climb_ancSelf s L (s.nodes2levels n) n
    · rw [← hpi]
      exact (climb_depth s hb.parent hb.rootLevel L (s.nodes2levels n) n hnlen le_rfl).1
    · intro hlvl
      rw [← hpi]
      exact climb_clamp s L (s.nodes2levels n) n hlvl

theorem get_clusters_level_consistency_witness :
    ([5, 6, 7] : List Nat).Nodup ∧ OracleWF oracle0 ∧
    ((∀ L : Nat, ((get_clusters sWit (some L)).map Prod.fst).Perm [5, 6, 7]) ∧
     (∀ (L : Nat) (p : Nat × Nat), p ∈ get_clusters sWit (some L) →
       ∃ n, n ∈ sWit.leaf_nodes_idx ∧
         p.1 ∈ ((sWit.nodes.getD n default).data).getD [] ∧
         p.2 = climb sWit L (sWit.nodes2levels n) n ∧
         AncSelf sWit p.2 n ∧
         sWit.nodes2levels p.2 ≤ L ∧
         (sWit.nodes2levels n ≤ L → p.2 = n)) ∧
     get_clusters sWit none = get_clusters sWit (some (maxKey sWit.levelKeys))) :=
  ⟨by decide, oracle0_wf,
   get_clusters_level_consistency oracle0 5 [5, 6, 7] sWit (by decide) oracle0_wf rfl⟩

theorem medoid_cluster_ids_amended_witness :
    (⟨2, [0, 0, 1], [0, 2]⟩ : PamRes).medoid_indices.length
        = (⟨2, [0, 0, 1], [0, 2]⟩ : PamRes).k ∧
    (⟨2, [0, 0, 1], [0, 2]⟩ : PamRes).k ≠ 1 ∧
    ([5, 6, 7] : List Nat).Nodup ∧ OracleWF oracle0 ∧
    (level_pamk [5, 6, 7] 0 ⟨2, [0, 0, 1], [0, 2]⟩).2.map Prod.fst
        = List.range' (0 + 1) (⟨2, [0, 0, 1], [0, 2]⟩ : PamRes).k ∧
    (sWit.medoids.map Prod.fst = List.range' 1 (sWit.nodes.length - 1) ∧
     (sWit.medoids.map Prod.fst).Nodup) :=
  ⟨by decide, by decide, by decide, oracle0_wf,
   medoid_cluster_ids_amended.1 [5, 6, 7] 0 ⟨2, [0, 0, 1], [0, 2]⟩ (by decide) (by decide),
   medoid_cluster_ids_amended.2 oracle0 5 [5, 6, 7] sWit (by decide) oracle0_wf rfl⟩

end AAT

/-! ## Theorems about the `spectral.py` embedding -/

namespace Spectral

lemma innerLoop_eq (svd : Nat → SvdOutcome) (n eps : ℚ) (cap t restarts n_iter : Nat)
    (last : ℚ) :
    innerLoop svd n eps cap t restarts n_iter last =
      match svd t with
      | .fail => .svdFail (t + 1) restarts
      | .succ svals =>
        let ncut := 2 * (n - svals.sum)
        if |ncut - last| < eps ∨ cap < n_iter + 1 then
          .converged t (t + 1) (restarts + 1)
        else
          innerLoop svd n eps cap (t + 1) (restarts + 1) (n_iter + 1) ncut := by
  unfold innerLoop
  rcases hf : cap + 1 - n_iter with _ | m
  · have hcap : cap < n_iter + 1 := by omega
    rcases hs : svd t with _ | svals
    · simp only [innerLoopGo, hs]
    · simp only [innerLoopGo, hs]
      rw [if_pos (Or.inr hcap)]
  · rcases hs : svd t with _ | svals
    · simp only [innerLoopGo, hs]
    · simp only [innerLoopGo, hs]
      by_cases hc : |2 * (n - svals.sum) - last| < eps ∨ cap < n_iter + 1
      · rw [if_pos hc, if_pos hc]
      · rw [if_neg hc, if_neg hc]
        rw [show cap + 1 - (n_iter + 1) = m by omega]

lemma innerLoop_fail (svd : Nat → SvdOutcome) (n eps : ℚ) (cap t restarts n_iter : Nat)
    (last : ℚ) (h : svd t = SvdOutcome.fail) :
    innerLoop svd n eps cap t restarts n_iter last = InnerResult.svdFail (t + 1) restarts := by
  rw [innerLoop_eq, h]

lemma innerLoop_succ (svd : Nat → SvdOutcome) (n eps : ℚ) (cap t restarts n_iter : Nat)
    (last : ℚ) (svals : List ℚ) (h : svd t = SvdOutcome.succ svals) :
    innerLoop svd n eps cap t restarts n_iter last =
      if |2 * (n - svals.sum) - last| < eps ∨ cap < n_iter + 1 then
        InnerResult.converged t (t + 1) (restarts + 1)
      else
        innerLoop svd n eps cap (t + 1) (restarts + 1) (n_iter + 1) (2 * (n - svals.sum)) := by
  rw [innerLoop_eq, h]

/-- C6: one iteration of the inner fixed-point loop of `discretize` on a
successful SVD call computes the objective `ncut = 2 * (n_samples -
S.sum())` and declares convergence — returning the current hard
partition, identified by the iteration's SVD call index `t` — exactly
when `|ncut - last_objective_value| < eps` or the iteration cap is
exceeded; otherwise it continues with `last_objective_value := ncut`. -/
theorem discretize_inner_objective (svd : Nat → SvdOutcome) (n eps : ℚ)
    (cap t restarts n_iter : Nat) (last : ℚ) (svals : List ℚ)
    (h : svd t = SvdOutcome.succ svals) :
    innerLoop svd n eps cap t restarts n_iter last =
      if |2 * (n - svals.sum) - last| < eps ∨ cap < n_iter + 1 then
        InnerResult.converged t (t + 1) (restarts + 1)
      else
        innerLoop svd n eps cap (t + 1) (restarts + 1) (n_iter + 1) (2 * (n - svals.sum)) :=
  innerLoop_succ svd n eps cap t restarts n_iter last svals h

theorem discretize_inner_objective_witness :
    (fun _ => SvdOutcome.succ [2, 2]) 0 = SvdOutcome.succ [2, 2] ∧
    innerLoop (fun _ => SvdOutcome.succ [2, 2]) 4 (1 / 1000) 20 0 0 0 0 =
      if |2 * ((4 : ℚ) - ([2, 2] : List ℚ).sum) - 0| < 1 / 1000 ∨ 20 < 0 + 1 then
        InnerResult.converged 0 (0 + 1) (0 + 1)
      else
        innerLoop (fun _ => SvdOutcome.succ [2, 2]) 4 (1 / 1000) 20 (0 + 1) (0 + 1) (0 + 1)
          (2 * ((4 : ℚ) - ([2, 2] : List ℚ).sum)) :=
  ⟨rfl, discretize_inner_objective (fun _ => SvdOutcome.succ [2, 2]) 4 (1 / 1000) 20 0 0 0 0
    [2, 2] rfl⟩

lemma outerLoop_allFail (n eps : ℚ) (cap max_svd_restarts : Nat)
    (hm : 0 < max_svd_restarts) :
    ∀ (fuel t : Nat),
      outerLoop (fun _ => SvdOutcome.fail) n eps cap max_svd_restarts fuel t 0 = none := by
  intro fuel
  induction fuel with
  | zero => intro t; rfl
  | succ fuel ih =>
    intro t
    simp only [outerLoop, if_pos hm,
      innerLoop_fail (fun _ => SvdOutcome.fail) n eps cap t 0 0 0 rfl]
    exact ih (t + 1)

/-- C4: the restart accounting of `discretize` is inverted.  (i) A
failing SVD call breaks the inner loop WITHOUT incrementing
`svd_restarts` (the increment at line 130 sits inside the `try`, after
the `np.linalg.svd` call, so a raising call never reaches it); (ii) a
successful SVD call DOES increment `svd_restarts` even when the loop
immediately converges; (iii) consequently, with the default bounds
(`max_svd_restarts = 30`, `n_iter_max = 20`), if every SVD call fails
the outer loop never terminates, for any number of passes — it never
raises the promised `LinAlgError('SVD did not converge')`, contradicting
the claim that at most `max_svd_restarts` restarts happen before a
convergence error. -/
theorem svd_restart_counting_bug :
    (∀ (n eps : ℚ) (cap t restarts n_iter : Nat) (last : ℚ),
        innerLoop (fun _ => SvdOutcome.fail) n eps cap t restarts n_iter last =
          InnerResult.svdFail (t + 1) restarts) ∧
    (innerLoop (fun _ => SvdOutcome.succ []) 4 (1 / 1000) 0 0 0 0 0 =
        InnerResult.converged 0 1 1) ∧
    (∀ fuel : Nat,
        discretizeSkel (fun _ => SvdOutcome.fail) 4 (1 / 1000) 30 20 fuel = none) := by
  refine ⟨fun n eps cap t restarts n_iter last =>
      innerLoop_fail (fun _ => SvdOutcome.fail) n eps cap t restarts n_iter last rfl, ?_,
    fun fuel => outerLoop_allFail 4 (1 / 1000) 20 30 (by omega) fuel 0⟩
  rw [innerLoop_succ (fun _ => SvdOutcome.succ []) 4 (1 / 1000) 0 0 0 0 0 [] rfl]
  norm_num

end Spectral

namespace Spectral

noncomputable section

/-- A concrete 2-sample, 2-component embedding (the identity matrix)
witnessing the sign behaviour of the column normalization. -/
def exV : Fin 2 → Fin 2 → ℝ := fun i j => if i = j then 1 else 0

end

lemma vecNorm_nonneg {m : Nat} (v : Fin m → ℝ) : 0 ≤ vecNorm v :=
  Real.sqrt_nonneg _

lemma vecNorm_smul {m : Nat} (c : ℝ) (v : Fin m → ℝ) :
    vecNorm (fun j => c * v j) = |c| * vecNorm v := by
  unfold vecNorm
  have h : (∑ j, (c * v j) ^ 2) = c ^ 2 * ∑ j, v j ^ 2 := by
    rw [Finset.mul_sum]
    exact Finset.sum_congr rfl (fun j _ => by ring)
  rw [h, Real.sqrt_mul (sq_nonneg c), Real.sqrt_sq_eq_abs]

lemma sign_mul_self (x : ℝ) : x * Real.sign x = |x| := by
  rcases lt_trichotomy x 0 with h | h | h
  · rw [Real.sign_of_neg h, abs_of_neg h]
    ring
  · subst h
    simp
  · rw [Real.sign_of_pos h, abs_of_pos h]
    ring

lemma abs_sign_of_ne (x : ℝ) (h : x ≠ 0) : |Real.sign x| = 1 := by
  rcases h.lt_or_lt with hl | hl
  · rw [Real.sign_of_neg hl]
    norm_num
  · rw [Real.sign_of_pos hl]
    norm_num

lemma flipColumn_zero_nonpos {n : Nat} (v : Fin (n + 1) → ℝ) :
    flipColumn v 0 ≤ 0 := by
  unfold flipColumn
  by_cases h : v 0 ≠ 0
  · rw [if_pos h]
    show -1 * v 0 * Real.sign (v 0) ≤ 0
    have he : -1 * v 0 * Real.sign (v 0) = -(v 0 * Real.sign (v 0)) := by ring
    rw [he, sign_mul_self]
    exact neg_nonpos.mpr (abs_nonneg _)
  · rw [if_neg h]
    rw [not_not] at h
    exact le_of_eq h

lemma vecNorm_flip {n : Nat} (v : Fin (n + 1) → ℝ) :
    vecNorm (flipColumn v) = vecNorm v := by
  unfold flipColumn
  by_cases h : v 0 ≠ 0
  · rw [if_pos h]
    have he : (fun j => -1 * v j * Real.sign (v 0)) =
        fun j => (-1 * Real.sign (v 0)) * v j := by
      funext j
      ring
    rw [he, vecNorm_smul, abs_mul, abs_neg, abs_one, one_mul,
      abs_sign_of_ne (v 0) h, one_mul]
  · rw [if_neg h]

lemma vecNorm_scaleColumn {m : Nat} (v : Fin m → ℝ) (h : vecNorm v ≠ 0) :
    vecNorm (scaleColumn v) = Real.sqrt m := by
  unfold scaleColumn
  have he : (fun j => v j / vecNorm v * Real.sqrt m) =
      fun j => (Real.sqrt m / vecNorm v) * v j := by
    funext j
    ring
  rw [he, vecNorm_smul, abs_div, abs_of_nonneg (Real.sqrt_nonneg _),
    abs_of_nonneg (vecNorm_nonneg v), div_mul_cancel₀ _ h]

lemma vecNorm_normalizeRows {n d : Nat} (W : Fin n → Fin d → ℝ) (i : Fin n)
    (h : vecNorm (W i) ≠ 0) :
    vecNorm (fun j => normalizeRows W i j) = 1 := by
  unfold normalizeRows
  have he : (fun j => W i j / vecNorm (W i)) =
      fun j => (1 / vecNorm (W i)) * W i j := by
    funext j
    ring
  rw [he, vecNorm_smul, abs_div, abs_one, abs_of_nonneg (vecNorm_nonneg _),
    one_div, inv_mul_cancel₀ h]

lemma exV_col_norm : vecNorm (fun r => exV r 0) = 1 := by
  unfold vecNorm exV
  rw [Fin.sum_univ_two]
  norm_num [Real.sqrt_one]

lemma exV_row_norm : vecNorm (exV 0) = 1 := by
  unfold vecNorm exV
  rw [Fin.sum_univ_two]
  norm_num [Real.sqrt_one]

/-- C5 (counterexample): on the 2x2 identity embedding, the first-row
entry of column 0 after the per-column normalization step is strictly
NEGATIVE — the code multiplies the column by `-1 * sign(vectors[0, i])`,
so a column whose first entry was positive ends with a negative one,
refuting the claimed non-negativity of the first row. -/
theorem discretize_sign_counterexample :
    normalizeColumns exV 0 0 < 0 := by
  have hw : scaleColumn (fun r => exV r 0) 0 = Real.sqrt 2 := by
    show (fun r => exV r 0) 0 / vecNorm (fun r => exV r 0) * Real.sqrt 2 = Real.sqrt 2
    rw [exV_col_norm]
    norm_num [exV]
  have hs2 : (0 : ℝ) < Real.sqrt 2 := Real.sqrt_pos.mpr (by norm_num)
  have h0 : scaleColumn (fun r => exV r 0) 0 ≠ 0 := by
    rw [hw]
    exact ne_of_gt hs2
  show flipColumn (scaleColumn (fun r => exV r 0)) 0 < 0
  unfold flipColumn
  rw [if_pos h0]
  show -1 * scaleColumn (fun r => exV r 0) 0 *
      Real.sign (scaleColumn (fun r => exV r 0) 0) < 0
  rw [hw, Real.sign_of_pos hs2]
  linarith

/-- C5 (amended): in the normalization prologue of `discretize`, each
column with nonzero norm is scaled to norm `sqrt(n_samples)` and its
sign flipped so that the FIRST-ROW entry in that column is
NON-POSITIVE (the code multiplies by minus the sign of the first
entry); afterwards every row with nonzero norm is renormalized to unit
length, and the whole prologue is exactly row normalization after
column normalization. -/
theorem discretize_normalization_amended :
    (∀ (n d : Nat) (V : Fin (n + 1) → Fin d → ℝ) (j : Fin d),
        normalizeColumns V 0 j ≤ 0) ∧
    (∀ (n d : Nat) (V : Fin (n + 1) → Fin d → ℝ) (j : Fin d),
        vecNorm (fun r => V r j) ≠ 0 →
        vecNorm (fun i => normalizeColumns V i j) = Real.sqrt ((n + 1 : ℕ) : ℝ)) ∧
    (∀ (n d : Nat) (W : Fin n → Fin d → ℝ) (i : Fin n),
        vecNorm (W i) ≠ 0 →
        vecNorm (fun j => normalizeRows W i j) = 1) ∧
    (∀ (n d : Nat) (V : Fin (n + 1) → Fin d → ℝ),
        discretizeNormalize V = normalizeRows (normalizeColumns V)) := by
  refine ⟨fun n d V j => flipColumn_zero_nonpos (scaleColumn (fun r => V r j)),
    fun n d V j h => ?_,
    fun n d W i h => vecNorm_normalizeRows W i h,
    fun n d V => rfl⟩
  show vecNorm (flipColumn (scaleColumn (fun r => V r j))) = _
  rw [vecNorm_flip, vecNorm_scaleColumn _ h]

theorem discretize_normalization_amended_witness :
    vecNorm (fun r => exV r 0) ≠ 0 ∧ vecNorm (exV 0) ≠ 0 ∧
    vecNorm (fun i => normalizeColumns exV i 0) = Real.sqrt ((1 + 1 : ℕ) : ℝ) ∧
    vecNorm (fun j => normalizeRows exV 0 j) = 1 :=
  ⟨by rw [exV_col_norm]; norm_num,
   by rw [exV_row_norm]; norm_num,
   discretize_normalization_amended.2.1 1 2 exV 0 (by rw [exV_col_norm]; norm_num),
   discretize_normalization_amended.2.2.1 2 2 exV 0 (by rw [exV_row_norm]; norm_num)⟩

end Spectral

namespace Spectral

/-- A trivial oracle bundle over `Unit`, whose `discretize` succeeds. -/
def trivOracles : SCOracles Unit Unit Unit :=
  ⟨fun _ => (), fun _ => ((), ()), fun _ => ((), ()), fun _ => Except.ok ()⟩

/-- A second trivial oracle bundle, whose `discretize` raises. -/
def trivOracles2 : SCOracles Unit Unit Unit :=
  ⟨fun _ => (), fun _ => ((), ()), fun _ => ((), ()), fun _ => Except.error "x"⟩

/-- C9: an `assign_labels` value outside {kmedoids, kmeans, discretize}
makes `spectral_clustering_mod` fail with the configuration
`ValueError` before any computation begins — the result is the same for
every bundle of numeric collaborators, so in particular the spectral
embedding is never consulted; and for every accepted value no
`ValueError` is ever produced. -/
theorem assign_labels_validation :
    (∀ (E C L : Type) (assign_labels : String) (n_clusters : Nat)
        (n_components : Option Nat) (o o₂ : SCOracles E C L),
        assign_labels ∉ (["kmedoids", "kmeans", "discretize"] : List String) →
        spectral_clustering_mod assign_labels n_clusters n_components o =
          Except.error (SCError.valueError
            ("The assign_labels parameter should be kmedoids, kmeans or discretize, but "
              ++ assign_labels ++ " was given")) ∧
        spectral_clustering_mod assign_labels n_clusters n_components o =
          spectral_clustering_mod assign_labels n_clusters n_components o₂) ∧
    (∀ (E C L : Type) (assign_labels : String) (n_clusters : Nat)
        (n_components : Option Nat) (o : SCOracles E C L) (msg : String),
        assign_labels ∈ (["kmedoids", "kmeans", "discretize"] : List String) →
        spectral_clustering_mod assign_labels n_clusters n_components o ≠
          Except.error (SCError.valueError msg)) := by
  constructor
  · intro E C L al nc ncomp o o₂ h
    constructor
    · unfold spectral_clustering_mod
      rw [if_pos h]
    · unfold spectral_clustering_mod
      rw [if_pos h, if_pos h]
  · intro E C L al nc ncomp o msg h
    simp only [List.mem_cons, List.not_mem_nil, or_false] at h
    rcases h with h | h | h
    · subst h
      simp [spectral_clustering_mod]
    · subst h
      simp [spectral_clustering_mod]
    · subst h
      rcases hd : SCOracles.discretize o (SCOracles.embed o (ncomp.getD nc)) with l | m
      · simp [spectral_clustering_mod, hd]
      · simp [spectral_clustering_mod, hd]

theorem assign_labels_validation_witness :
    ("foo" ∉ (["kmedoids", "kmeans", "discretize"] : List String)) ∧
    ("kmeans" ∈ (["kmedoids", "kmeans", "discretize"] : List String)) ∧
    (spectral_clustering_mod "foo" 3 none trivOracles =
        Except.error (SCError.valueError
          ("The assign_labels parameter should be kmedoids, kmeans or discretize, but "
            ++ "foo" ++ " was given")) ∧
      spectral_clustering_mod "foo" 3 none trivOracles =
        spectral_clustering_mod "foo" 3 none trivOracles2) ∧
    (spectral_clustering_mod "kmeans" 3 none trivOracles ≠
        Except.error (SCError.valueError "boom")) :=
  ⟨by decide, by decide,
   assign_labels_validation.1 Unit Unit Unit "foo" 3 none trivOracles trivOracles2 (by decide),
   assign_labels_validation.2 Unit Unit Unit "kmeans" 3 none trivOracles "boom" (by decide)⟩

end Spectral
